import Mathlib

/-!
Verification of the mux-web-streams protocol engine.

This file embeds the core of the repository (the frame codec in
src/helpers.ts, the multiplexer scheduler in src/muxer.ts, and the
demultiplexer reassembly engine in demuxer.ts) as executable Lean
definitions and proves or refutes the specified properties.

Conventions of the embedding:
- JS byte values (Uint8Array elements, DataView bytes) are `Nat`
  (< 256 where it matters, tracked by explicit hypotheses).
- JS strings are lists of Unicode code points (`List Nat`).
- JS numbers inside JSON values are modelled as `Int` (the only numbers
  the claims exercise are integers; JS float formatting never produces
  control characters, so the marker-safety results are representative).
- Fallible JS code (functions that can throw) returns `Except String`.
- The platform primitives JSON.stringify / JSON.parse / TextEncoder /
  TextDecoder are external collaborators of the repository; they are
  modelled here as executable functions at their documented interface
  (JSON text with standard escaping, UTF-8 encoding).
-/

namespace MuxWebStreams

/-! ### JSON values

Model of the TS `JSONValue` union from src/types.ts
(`string | number | boolean | null | JSONObject | JSONArray`).
Mutual inductives are used so that structural recursion and induction
over arrays and objects are available. -/

mutual

inductive JValue where
  | null : JValue
  | bool (b : Bool) : JValue
  | num (n : Int) : JValue
  | str (s : List Nat) : JValue
  | arr (xs : JArray) : JValue
  | obj (kvs : JObject) : JValue

inductive JArray where
  | nil : JArray
  | cons (v : JValue) (rest : JArray) : JArray

inductive JObject where
  | nil : JObject
  | cons (key : List Nat) (v : JValue) (rest : JObject) : JObject

end

deriving instance DecidableEq for JValue

/-- Model of the TS `SerializableData` union from src/types.ts:
a JSON-representable value or a raw `Uint8Array`. -/
inductive SerializableData where
  | json (v : JValue) : SerializableData
  | bytes (b : List Nat) : SerializableData
deriving DecidableEq

/-! ### Decimal printing of numbers (model of JS number-to-string for
integers, as used by JSON.stringify) -/

/-- Decimal digits of `n`, most significant first, as character codes.
The fuel argument makes the definition structurally recursive so it
reduces definitionally; `natChars` supplies enough fuel. -/
def natCharsAux : Nat → Nat → List Nat
  | 0, _ => []
  | fuel + 1, n =>
    if n < 10 then [n + 48]
    else natCharsAux fuel (n / 10) ++ [n % 10 + 48]

/-- Decimal representation of a natural number as character codes. -/
def natChars (n : Nat) : List Nat := natCharsAux (n + 1) n

/-- Decimal representation of an integer as character codes
(a leading 45 is the minus sign). -/
def intChars : Int → List Nat
  | .ofNat m => natChars m
  | .negSucc m => 45 :: natChars (m + 1)

/-! ### String escaping (model of JSON.stringify string quoting) -/

/-- Hex digit character (lowercase, as emitted by JSON.stringify). -/
def hexDigit (d : Nat) : Nat := if d < 10 then 48 + d else 87 + d

/-- Escape of one string character, per the JSON.stringify quoting rules:
quote and backslash are backslash-escaped, the named control characters
get two-character escapes, all other control characters get a
`\u00XX` escape, and every other character is emitted verbatim. -/
def escapeChar (c : Nat) : List Nat :=
  if c = 34 then [92, 34]
  else if c = 92 then [92, 92]
  else if c = 8 then [92, 98]
  else if c = 9 then [92, 116]
  else if c = 10 then [92, 110]
  else if c = 12 then [92, 102]
  else if c = 13 then [92, 114]
  else if c < 32 then [92, 117, 48, 48, hexDigit (c / 16), hexDigit (c % 16)]
  else [c]

/-- Escape every character of a string body. -/
def escapeChars : List Nat → List Nat
  | [] => []
  | c :: rest => escapeChar c ++ escapeChars rest

/-! ### JSON.stringify (model of the platform serializer, no whitespace) -/

mutual

/-- Characters of `JSON.stringify v`. -/
def stringifyV : JValue → List Nat
  | .null => [110, 117, 108, 108]
  | .bool true => [116, 114, 117, 101]
  | .bool false => [102, 97, 108, 115, 101]
  | .num n => intChars n
  | .str s => 34 :: (escapeChars s ++ [34])
  | .arr xs => 91 :: stringifyElems xs
  | .obj kvs => 123 :: stringifyMembers kvs

/-- Contents of an array after the opening bracket, including the
closing bracket. -/
def stringifyElems : JArray → List Nat
  | .nil => [93]
  | .cons v rest =>
    stringifyV v ++
      (match rest with
       | .nil => [93]
       | .cons _ _ => 44 :: stringifyElems rest)

/-- Contents of an object after the opening brace, including the
closing brace. -/
def stringifyMembers : JObject → List Nat
  | .nil => [125]
  | .cons k v rest =>
    34 :: (escapeChars k ++ [34, 58]) ++ stringifyV v ++
      (match rest with
       | .nil => [125]
       | .cons _ _ _ => 44 :: stringifyMembers rest)

end

/-! ### UTF-8 (model of TextEncoder / TextDecoder) -/

/-- UTF-8 encoding of one code point. -/
def utf8EncodeChar (c : Nat) : List Nat :=
  if c < 128 then [c]
  else if c < 2048 then [192 + c / 64, 128 + c % 64]
  else if c < 65536 then [224 + c / 4096, 128 + c / 64 % 64, 128 + c % 64]
  else [240 + c / 262144, 128 + c / 4096 % 64, 128 + c / 64 % 64, 128 + c % 64]

/-- UTF-8 encoding of a string. -/
def utf8Encode : List Nat → List Nat
  | [] => []
  | c :: rest => utf8EncodeChar c ++ utf8Encode rest

mutual

/-- UTF-8 decoding of a byte list back to code points. Lenient on
malformed input (a truncated sequence yields the replacement
character), exact on output of `utf8Encode` over Unicode scalar
values. -/
def utf8Decode : List Nat → List Nat
  | [] => []
  | b :: rest =>
    if b < 128 then b :: utf8Decode rest
    else if b < 224 then utf8Cont1 b rest
    else if b < 240 then utf8Cont2 b rest
    else utf8Cont3 b rest

/-- Continuation of a two-byte sequence. -/
def utf8Cont1 : Nat → List Nat → List Nat
  | _, [] => [65533]
  | b, b1 :: r => ((b - 192) * 64 + (b1 - 128)) :: utf8Decode r

/-- Continuation of a three-byte sequence. -/
def utf8Cont2 : Nat → List Nat → List Nat
  | b, b1 :: b2 :: r => ((b - 224) * 4096 + (b1 - 128) * 64 + (b2 - 128)) :: utf8Decode r
  | _, _ => [65533]

/-- Continuation of a four-byte sequence. -/
def utf8Cont3 : Nat → List Nat → List Nat
  | b, b1 :: b2 :: b3 :: r =>
    ((b - 240) * 262144 + (b1 - 128) * 4096 + (b2 - 128) * 64 + (b3 - 128)) :: utf8Decode r
  | _, _ => [65533]

end

example : utf8Decode (utf8Encode [104, 1000, 70000, 120000]) = [104, 1000, 70000, 120000] := rfl
example : stringifyV (.arr (.cons (.num 1) (.cons (.num (-23)) .nil))) =
    [91, 49, 44, 45, 50, 51, 93] := rfl
example : natChars 910 = [57, 49, 48] := rfl

/-! ### JSON.parse (model of the platform parser)

A recursive-descent parser over code points. It accepts exactly the
grammar that `stringifyV` emits (JSON without insignificant
whitespace, integer numbers) and rejects everything else, which is
what the repository feeds it in every reachable path. -/

/-- Digit character test. -/
def isDigit (c : Nat) : Bool := 48 ≤ c && c ≤ 57

/-- Value of a digit run, most significant first. -/
def digitsToNat (ds : List Nat) : Nat := ds.foldl (fun a c => a * 10 + (c - 48)) 0

/-- Parse a nonempty digit run into a natural number. -/
def parseNatNum (s : List Nat) : Option (Nat × List Nat) :=
  let ds := s.takeWhile isDigit
  if ds.isEmpty then none else some (digitsToNat ds, s.dropWhile isDigit)

/-- Parse a JSON number (optional minus sign, digit run). -/
def parseNumber : List Nat → Option (Int × List Nat)
  | [] => none
  | c :: s1 =>
    if c = 45 then (parseNatNum s1).map (fun p => (-(p.1 : Int), p.2))
    else (parseNatNum (c :: s1)).map (fun p => ((p.1 : Int), p.2))

/-- Value of one hex digit character. -/
def hexVal (c : Nat) : Option Nat :=
  if 48 ≤ c && c ≤ 57 then some (c - 48)
  else if 97 ≤ c && c ≤ 102 then some (c - 87)
  else if 65 ≤ c && c ≤ 70 then some (c - 55)
  else none

mutual

/-- Parse the body of a JSON string after the opening quote, up to and
including the closing quote. -/
def parseStringBody : List Nat → Option (List Nat × List Nat)
  | [] => none
  | c :: rest =>
    if c = 34 then some ([], rest)
    else if c = 92 then parseEscapeTail rest
    else (parseStringBody rest).map (fun p => (c :: p.1, p.2))

/-- Parse the character after a backslash inside a string, then the
rest of the string body. -/
def parseEscapeTail : List Nat → Option (List Nat × List Nat)
  | [] => none
  | e :: rest =>
    if e = 34 then (parseStringBody rest).map (fun p => (34 :: p.1, p.2))
    else if e = 92 then (parseStringBody rest).map (fun p => (92 :: p.1, p.2))
    else if e = 47 then (parseStringBody rest).map (fun p => (47 :: p.1, p.2))
    else if e = 98 then (parseStringBody rest).map (fun p => (8 :: p.1, p.2))
    else if e = 116 then (parseStringBody rest).map (fun p => (9 :: p.1, p.2))
    else if e = 110 then (parseStringBody rest).map (fun p => (10 :: p.1, p.2))
    else if e = 102 then (parseStringBody rest).map (fun p => (12 :: p.1, p.2))
    else if e = 114 then (parseStringBody rest).map (fun p => (13 :: p.1, p.2))
    else if e = 117 then
      match rest with
      | h1 :: h2 :: h3 :: h4 :: r =>
        match hexVal h1, hexVal h2, hexVal h3, hexVal h4 with
        | some v1, some v2, some v3, some v4 =>
          (parseStringBody r).map
            (fun p => ((((v1 * 16 + v2) * 16 + v3) * 16 + v4) :: p.1, p.2))
        | _, _, _, _ => none
      | _ => none
    else none

end

mutual

/-- Parse one JSON value. Fuel decreases on every nested call; the
top-level entry point supplies enough fuel for any input. -/
def parseValue : Nat → List Nat → Option (JValue × List Nat)
  | 0, _ => none
  | _ + 1, [] => none
  | fuel + 1, c :: s =>
    if c = 110 then
      match s with
      | 117 :: 108 :: 108 :: r => some (.null, r)
      | _ => none
    else if c = 116 then
      match s with
      | 114 :: 117 :: 101 :: r => some (.bool true, r)
      | _ => none
    else if c = 102 then
      match s with
      | 97 :: 108 :: 115 :: 101 :: r => some (.bool false, r)
      | _ => none
    else if c = 34 then
      (parseStringBody s).map (fun p => (.str p.1, p.2))
    else if c = 91 then
      match s with
      | 93 :: r => some (.arr .nil, r)
      | _ => (parseElems fuel s).map (fun p => (.arr p.1, p.2))
    else if c = 123 then
      match s with
      | 125 :: r => some (.obj .nil, r)
      | _ => (parseMembers fuel s).map (fun p => (.obj p.1, p.2))
    else if c = 45 || isDigit c then
      (parseNumber (c :: s)).map (fun p => (.num p.1, p.2))
    else none

/-- Parse a nonempty comma-separated element list, up to and including
the closing bracket. -/
def parseElems : Nat → List Nat → Option (JArray × List Nat)
  | 0, _ => none
  | fuel + 1, s =>
    match parseValue fuel s with
    | some (v, 44 :: r) => (parseElems fuel r).map (fun p => (.cons v p.1, p.2))
    | some (v, 93 :: r) => some (.cons v .nil, r)
    | _ => none

/-- Parse a nonempty comma-separated member list, up to and including
the closing brace. -/
def parseMembers : Nat → List Nat → Option (JObject × List Nat)
  | 0, _ => none
  | fuel + 1, s =>
    match s with
    | 34 :: s1 =>
      match parseStringBody s1 with
      | some (k, 58 :: r) =>
        match parseValue fuel r with
        | some (v, 44 :: r1) => (parseMembers fuel r1).map (fun p => (.cons k v p.1, p.2))
        | some (v, 125 :: r1) => some (.cons k v .nil, r1)
        | _ => none
      | _ => none
    | _ => none

end

/-- Model of `JSON.parse`: parse a whole string to a value, requiring
that every character be consumed. -/
def jsonParse (s : List Nat) : Option JValue :=
  match parseValue (2 * s.length + 1) s with
  | some (v, []) => some v
  | _ => none

example : jsonParse (stringifyV (.arr (.cons (.num 1) (.cons (.str [104, 4, 34]) .nil)))) =
    some (.arr (.cons (.num 1) (.cons (.str [104, 4, 34]) .nil))) := rfl
example : jsonParse [120] = none := rfl
example : jsonParse (stringifyV (.obj (.cons [97] (.num (-5)) (.cons [98] .null .nil)))) =
    some (.obj (.cons [97] (.num (-5)) (.cons [98] .null .nil))) := rfl

/-! ### Frame codec (src/helpers.ts) -/

/-- HEADER_LENGTH from src/helpers.ts. -/
def HEADER_LENGTH : Nat := 4

/-- NUMBER_OFFSET from src/helpers.ts. -/
def NUMBER_OFFSET : Nat := 5

/-- MAX_UINT8 from src/helpers.ts: 2 ^ 8 - 1 - NUMBER_OFFSET = 250. -/
def MAX_UINT8 : Nat := 2 ^ 8 - 1 - NUMBER_OFFSET

/-- The TS `Header` record. The `id` field is a JS number (an integer
in every reachable path), kept as `Int` so that the negative-id guard
of `headerToArray` and the unchecked subtraction of `arrayToHeader`
are representable. The source field name `end` is a Lean keyword and
is embedded as `endFlag`. -/
structure Header where
  id : Int
  endFlag : Bool
  dataIsRaw : Bool
deriving DecidableEq, Repr

/-- JS `Number(b)` for a boolean. -/
def boolNum (b : Bool) : Nat := if b then 1 else 0

/-- headerToArray from src/helpers.ts: 4 bytes
`[0x01, id + 5, Number(end) + 5, Number(dataIsRaw) + 5]`; throws when
`id` is above MAX_UINT8 = 250 or below 0. -/
def headerToArray (header : Header) : Except String (List Nat) :=
  if header.id > (MAX_UINT8 : Int) ∨ header.id < 0 then
    .error "stream id must be a number between 0 and 250"
  else
    .ok [1, (header.id + NUMBER_OFFSET).toNat,
         boolNum header.endFlag + NUMBER_OFFSET,
         boolNum header.dataIsRaw + NUMBER_OFFSET]

/-- arrayToHeader from src/helpers.ts: checks the length and the
`0x01` control code, then decodes the three offset bytes. JS
`Boolean(x)` on a number is `x ≠ 0`. -/
def arrayToHeader (array : List Nat) : Except String Header :=
  if array.length < HEADER_LENGTH then .error "Bad header"
  else if array.getD 0 0 ≠ 1 then .error "Expected header control code 0x01"
  else
    .ok { id := (array.getD 1 0 : Int) - NUMBER_OFFSET,
          endFlag := decide ((array.getD 2 0 : Int) - NUMBER_OFFSET ≠ 0),
          dataIsRaw := decide ((array.getD 3 0 : Int) - NUMBER_OFFSET ≠ 0) }

/-- Conversion of a byte list to a JSON array of numbers
(JS `Array.from(uint8array)` viewed as a JSON value). -/
def bytesToJArray : List Nat → JArray
  | [] => .nil
  | x :: rest => .cons (.num (x : Int)) (bytesToJArray rest)

/-- serializeData from src/helpers.ts. A `Uint8Array` value is first
converted to a plain number array and flagged raw; either way the
result is the UTF-8 encoding of the JSON text of the value. -/
def serializeData : SerializableData → List Nat × Bool
  | .bytes b => (utf8Encode (stringifyV (.arr (bytesToJArray b))), true)
  | .json v => (utf8Encode (stringifyV v), false)

/-- ToUint8 of each element of a parsed JSON array: numbers reduce
modulo 256, anything else becomes 0. -/
def reviveList : JArray → List Nat
  | .nil => []
  | .cons (.num n) rest => (n % 256).toNat :: reviveList rest
  | .cons _ rest => 0 :: reviveList rest

/-- JS `new Uint8Array(x)` applied to a parsed JSON value, restricted
to the shapes the repository can reach: an array input takes each
element through ToUint8, a number input allocates that many zero
bytes, anything else gives an empty array. -/
def reviveBytes : JValue → List Nat
  | .arr xs => reviveList xs
  | .num n => List.replicate n.toNat 0
  | _ => []

/-- deserializeData from src/helpers.ts: always `JSON.parse` the UTF-8
decoding of the data (this throws on unparseable text: the source has
no catch), then revive a `Uint8Array` when the raw flag is set. -/
def deserializeData (data : List Nat) (isRaw : Bool) : Except String SerializableData :=
  match jsonParse (utf8Decode data) with
  | none => .error "Unexpected token in JSON"
  | some decodedValue =>
    if isRaw then .ok (.bytes (reviveBytes decodedValue))
    else .ok (.json decodedValue)

/-! ### Multiplexer (src/muxer.ts) -/

/-- The per-stream reader record of src/muxer.ts (`id`, `busy`,
`end`); the reader handle itself carries no scheduler-relevant state
and is omitted. The source field name `end` is embedded as
`endFlag`. -/
structure Reader where
  id : Nat
  busy : Bool
  endFlag : Bool
deriving DecidableEq, Repr

/-- Result of getNextReader. `lookupErr` models the JS crash when
`readerById[lastReaderId]!` is undefined (never reached for the
registries the muxer builds). -/
inductive NextReaderResult where
  | reader (r : Reader)
  | allDone
  | allBusy
  | lookupErr
deriving DecidableEq, Repr

/-- getNextReader from src/muxer.ts. The registry is the list of
readers in ascending-id order (the order `Object.values` yields for
the integer-keyed record the muxer builds); `readerById[lastReaderId]`
is lookup by id. The loop returns the first non-ended, non-busy
candidate whose id is at least `(lastReaderId + 1) % N`; if none, the
reader with the last id is retried, then all-done / all-busy is
reported. -/
def getNextReader (readers : List Reader) (lastReaderId : Nat) : NextReaderResult :=
  let minimumNextId := (lastReaderId + 1) % readers.length
  match readers.find? (fun c => !c.endFlag && !c.busy && decide (minimumNextId ≤ c.id)) with
  | some candidate => .reader candidate
  | none =>
    match readers.find? (fun r => r.id == lastReaderId) with
    | none => .lookupErr
    | some current =>
      if !current.endFlag && !current.busy then .reader current
      else if readers.all (·.endFlag) then .allDone
      else .allBusy

/-- serializeChunk from src/muxer.ts: serialize the value, skip the
chunk entirely when the data is empty (`none`), otherwise prepend the
4-byte header. Propagates the headerToArray error (thrown when the id
is out of range). -/
def serializeChunk (id : Int) (endB : Bool) (value : SerializableData) :
    Except String (Option (List Nat)) :=
  let s := serializeData value
  if s.1.length = 0 then .ok none
  else do
    let header ← headerToArray { id := id, endFlag := endB, dataIsRaw := s.2 }
    .ok (some (header ++ s.1))

/-- The validation and registry construction the muxer performs
synchronously when invoked (src/muxer.ts lines 109-130): the only
check is non-emptiness; one reader per stream is registered with
`id = i`, not busy, not ended. -/
def muxerInit (numStreams : Nat) : Except String (List Reader) :=
  if numStreams = 0 then .error "Expected at least one stream"
  else .ok ((List.range numStreams).map (fun i => { id := i, busy := false, endFlag := false }))

/-- One read-completion of the mux session, as consumed by the
completion callback in attemptNextRead: stream `id` either produced a
value (`some v`) or signalled completion (`none`). -/
abbrev MuxOp := Nat × Option SerializableData

/-- The byte chunk the completion callback enqueues for one
read-completion: a non-terminal frame for a value, or the terminal
frame carrying the `'\u0004'` sentinel (string of the single code
point 4) when the stream finished. -/
def muxChunkOfOp : MuxOp → Except String (Option (List Nat))
  | (i, some v) => serializeChunk (i : Int) false v
  | (i, none) => serializeChunk (i : Int) true (.json (.str [4]))

/-- The sequence of chunks the muxer enqueues for a given sequence of
read-completions, in completion order. -/
def muxOutput : List MuxOp → Except String (List (List Nat))
  | [] => .ok []
  | op :: rest => do
    let c ← muxChunkOfOp op
    let cs ← muxOutput rest
    match c with
    | none => .ok cs
    | some chunk => .ok (chunk :: cs)

/-- The cancel handler of the muxer output stream (src/muxer.ts lines
222-226): every reader in the registry, ended or not, receives
`reader.cancel` with the formatted reason. The model records the
delivered reason on each reader. -/
structure CancelableReader where
  id : Nat
  endFlag : Bool
  canceledWith : Option String
deriving DecidableEq, Repr

/-- muxerCancel: `Object.values(readerById).forEach(({reader}) =>
reader.cancel(...))`. -/
def muxerCancel (readers : List CancelableReader) (reason : String) : List CancelableReader :=
  readers.map (fun r => { r with canceledWith := some ("The muxer stream was canceled: " ++ reason) })

/-! ### Demultiplexer (demuxer.ts) -/

/-- The byte-by-byte reassembly loop of getMuxedChunks. The JS loop
keeps the chunk list and mutates its last element; the model carries
the finished chunks (`done`), the chunk currently being filled
(`cur`, `none` when no marker has been seen yet in this call), and
the `headerBytesRemaining` counter. Appending a byte when the chunk
list is empty indexes `muxedChunks[-1]` in JS and throws; the model
returns `none` there. Note the counter affects only itself: header
and body bytes are appended identically, and a `0x01` byte always
starts a new chunk first. -/
def getMuxedChunksGo : List Nat → Nat → Option (List Nat) → List (List Nat) →
    Option (List (List Nat))
  | [], _, none, done => some done
  | [], _, some cur, done => some (done ++ [cur])
  | byte :: rest, headerBytesRemaining, cur, done =>
    if byte = 1 then
      match cur with
      | none => getMuxedChunksGo rest HEADER_LENGTH (some [byte]) done
      | some c => getMuxedChunksGo rest HEADER_LENGTH (some [byte]) (done ++ [c])
    else
      match cur with
      | none => none
      | some c =>
        getMuxedChunksGo rest
          (if headerBytesRemaining > 0 then headerBytesRemaining - 1 else headerBytesRemaining)
          (some (c ++ [byte])) done

/-- getMuxedChunks from demuxer.ts: split one received chunk into the
frames the muxer originally enqueued, scanning for the `0x01`
marker. -/
def getMuxedChunks (chunk : List Nat) : Option (List (List Nat)) :=
  getMuxedChunksGo chunk 0 none []

example : getMuxedChunks [1, 5, 6, 5, 40, 41, 1, 6, 5, 5, 50] =
    some [[1, 5, 6, 5, 40, 41], [1, 6, 5, 5, 50]] := rfl
example : getMuxedChunks [5, 40] = none := rfl

/-- The observable state of the demuxed output streams: per id, the
values enqueued so far (in order) and whether the controller has been
closed. -/
structure DemuxState where
  outputs : List (List SerializableData)
  closed : List Bool

/-- Initial demux state: `count` output streams are registered before
any byte is consumed, all open and empty. -/
def initDemuxState (count : Nat) : DemuxState :=
  { outputs := List.replicate count [], closed := List.replicate count false }

/-- Processing of one reconstructed frame by the demuxer write
callback: decode the header; look the controller up by id (undefined
lookup throws in JS); on an end frame close the stream (closing a
closed controller throws); otherwise deserialize the payload past the
header and enqueue it (enqueuing on a closed controller throws). -/
def processFrame (count : Nat) (st : DemuxState) (muxedChunk : List Nat) :
    Except String DemuxState := do
  let header ← arrayToHeader muxedChunk
  if 0 ≤ header.id ∧ header.id < (count : Int) then
    let i := header.id.toNat
    if header.endFlag then
      if st.closed.getD i false then .error "close called on closed controller"
      else .ok { st with closed := st.closed.set i true }
    else
      let data := muxedChunk.drop HEADER_LENGTH
      let value ← deserializeData data header.dataIsRaw
      if st.closed.getD i false then .error "enqueue called on closed controller"
      else .ok { st with outputs := st.outputs.set i (st.outputs.getD i [] ++ [value]) }
  else .error "no controller registered for this id"

/-- The demuxer write callback for one received chunk: split it into
frames, then process each in order. -/
def demuxWrite (count : Nat) (st : DemuxState) (chunk : List Nat) :
    Except String DemuxState := do
  match getMuxedChunks chunk with
  | none => .error "TypeError: cannot read property push of undefined"
  | some muxedChunks => muxedChunks.foldlM (processFrame count) st

/-- Run of the demuxer over a sequence of received chunks, starting
from the freshly-registered output streams. -/
def demuxRun (count : Nat) (chunks : List (List Nat)) : Except String DemuxState :=
  chunks.foldlM (demuxWrite count) (initDemuxState count)

/-- The per-chunk reassembly scan applied across a sequence of
transport chunks, as the demuxer does (each write call scans its own
chunk from a fresh local state): the reconstructed frame sequence is
the concatenation of the per-chunk scans. -/
def scanChunks (chunks : List (List Nat)) : Option (List (List Nat)) :=
  (chunks.mapM getMuxedChunks).map List.flatten

/-! ### Well-formedness predicates -/

/-- A string whose code points are Unicode scalar values: for these
the model of TextEncoder/TextDecoder agrees exactly with the
platform. -/
def wfString (s : List Nat) : Bool :=
  s.all (fun c => decide (c < 55296) || (decide (57343 < c) && decide (c < 1114112)))

mutual

/-- JSON values whose strings (including object keys) consist of
Unicode scalar values. -/
def wfV : JValue → Bool
  | .null => true
  | .bool _ => true
  | .num _ => true
  | .str s => wfString s
  | .arr xs => wfA xs
  | .obj kvs => wfO kvs

/-- All elements well-formed. -/
def wfA : JArray → Bool
  | .nil => true
  | .cons v rest => wfV v && wfA rest

/-- All keys and values well-formed. -/
def wfO : JObject → Bool
  | .nil => true
  | .cons k v rest => wfString k && wfV v && wfO rest

end

/-- Well-formed serializable data: a well-formed JSON value, or a byte
sequence with genuine byte values (every `Uint8Array` element is below
256). -/
def wfData : SerializableData → Bool
  | .json v => wfV v
  | .bytes b => b.all (fun x => decide (x < 256))

/-- A byte sequence that the marker scan treats as one whole frame: it
begins with the `0x01` marker and no other byte equals `0x01`. -/
def WellFormedFrame (f : List Nat) : Prop :=
  ∃ t, f = 1 :: t ∧ 1 ∉ t

mutual

/-- Structural size of a value, used as fuel bound for the parser. -/
def sizeV : JValue → Nat
  | .null => 1
  | .bool _ => 1
  | .num _ => 1
  | .str _ => 1
  | .arr xs => sizeA xs + 1
  | .obj kvs => sizeO kvs + 1

/-- Structural size of an array. -/
def sizeA : JArray → Nat
  | .nil => 1
  | .cons v rest => sizeV v + sizeA rest + 1

/-- Structural size of an object. -/
def sizeO : JObject → Nat
  | .nil => 1
  | .cons _ v rest => sizeV v + sizeO rest + 1

end

/-- The continuation after a printed number must not begin with a
digit, so that the number parser stops exactly at the boundary.
Every continuation arising inside printed JSON (a comma, a closing
bracket or brace, or the end of input) satisfies this. -/
def numSafe : List Nat → Bool
  | [] => true
  | c :: _ => !isDigit c

/-- The JSON value whose text is the serialized payload of a piece of
data: the value itself, or the number array of a raw byte sequence. -/
def dataJValue : SerializableData → JValue
  | .json v => v
  | .bytes b => .arr (bytesToJArray b)

/-- One read-completion interleaving is valid for the given source
streams when every op names an existing stream and, per stream, the
subsequence of its ops is exactly its values in order followed by one
completion signal. This captures exactly the sequences of
read-completions the muxer's scheduler can observe: the busy flag
serializes reads per stream, so per-id completions arrive in stream
order, while the interleaving across ids is scheduler-dependent. -/
def ValidInterleaving (streams : List (List SerializableData)) (ops : List MuxOp) : Prop :=
  (∀ p ∈ ops, p.1 < streams.length) ∧
  ∀ i, i < streams.length →
    ((ops.filter (fun p => p.1 == i)).map Prod.snd) =
      (streams.getD i []).map some ++ [none]

/-! ### Arithmetic of decimal printing -/

theorem natCharsAux_eq_natChars (n : Nat) : ∀ f, n < f → natCharsAux f n = natChars n := by
  induction n using Nat.strong_induction_on with
  | _ n ih =>
    intro f hf
    match f, hf with
    | g + 1, _ =>
      show natCharsAux (g + 1) n = natCharsAux (n + 1) n
      simp only [natCharsAux]
      by_cases hn : n < 10
      · simp [hn]
      · have hdiv : n / 10 < n := Nat.div_lt_self (by omega) (by omega)
        simp only [if_neg hn]
        rw [ih (n / 10) hdiv g (by omega), ih (n / 10) hdiv n (by omega)]

/-- Unfolding equation for `natChars` that hides the fuel. -/
theorem natChars_eq (n : Nat) :
    natChars n = if n < 10 then [n + 48] else natChars (n / 10) ++ [n % 10 + 48] := by
  show natCharsAux (n + 1) n = _
  simp only [natCharsAux]
  by_cases hn : n < 10
  · simp [hn]
  · have hdiv : n / 10 < n := Nat.div_lt_self (by omega) (by omega)
    simp only [if_neg hn]
    rw [natCharsAux_eq_natChars (n / 10) n (by omega)]

theorem natChars_digits (n : Nat) : ∀ c ∈ natChars n, isDigit c = true := by
  induction n using Nat.strong_induction_on with
  | _ n ih =>
    rw [natChars_eq]
    by_cases hn : n < 10
    · simp only [if_pos hn, List.mem_singleton]
      rintro c rfl
      simp [isDigit]; omega
    · have hdiv : n / 10 < n := Nat.div_lt_self (by omega) (by omega)
      simp only [if_neg hn, List.mem_append, List.mem_singleton]
      rintro c (hc | rfl)
      · exact ih _ hdiv c hc
      · have : n % 10 < 10 := Nat.mod_lt _ (by omega)
        simp [isDigit]; omega

theorem natChars_ne_nil (n : Nat) : natChars n ≠ [] := by
  rw [natChars_eq]
  by_cases hn : n < 10 <;> simp [hn]

/-- The head of a printed natural number is a digit. -/
theorem natChars_head (n : Nat) : ∃ c cs, natChars n = c :: cs ∧ isDigit c = true := by
  match h : natChars n with
  | [] => exact absurd h (natChars_ne_nil n)
  | c :: cs =>
    exact ⟨c, cs, rfl, natChars_digits n c (by rw [h]; exact List.mem_cons_self c cs)⟩

theorem digitsFold_natChars (n : Nat) : ∀ a : Nat,
    List.foldl (fun a c => a * 10 + (c - 48)) a (natChars n) =
      a * 10 ^ (natChars n).length + n := by
  induction n using Nat.strong_induction_on with
  | _ n ih =>
    intro a
    rw [natChars_eq]
    by_cases hn : n < 10
    · simp only [if_pos hn, List.foldl, List.length_singleton, pow_one]
      omega
    · have hdiv : n / 10 < n := Nat.div_lt_self (by omega) (by omega)
      simp only [if_neg hn, List.foldl_append, List.foldl, List.length_append,
        List.length_singleton]
      rw [ih _ hdiv a]
      have hmod : n % 10 + 48 - 48 = n % 10 := by omega
      rw [hmod, pow_succ]
      have : a * (10 ^ (natChars (n / 10)).length * 10) =
          a * 10 ^ (natChars (n / 10)).length * 10 := by ring
      rw [this]
      have := Nat.div_add_mod n 10
      omega

theorem digitsToNat_natChars (n : Nat) : digitsToNat (natChars n) = n := by
  show List.foldl _ 0 (natChars n) = n
  rw [digitsFold_natChars n 0]
  simp

/-! ### Number parsing inverts number printing -/

theorem takeWhile_append_all {p : Nat → Bool} {xs : List Nat} (ys : List Nat)
    (h : ∀ x ∈ xs, p x = true) : (xs ++ ys).takeWhile p = xs ++ ys.takeWhile p := by
  induction xs with
  | nil => simp
  | cons x t ih =>
    simp only [List.cons_append, List.takeWhile_cons, h x (List.mem_cons_self x t)]
    rw [ih (fun y hy => h y (List.mem_cons_of_mem x hy))]
    simp

theorem dropWhile_append_all {p : Nat → Bool} {xs : List Nat} (ys : List Nat)
    (h : ∀ x ∈ xs, p x = true) : (xs ++ ys).dropWhile p = ys.dropWhile p := by
  induction xs with
  | nil => simp
  | cons x t ih =>
    simp only [List.cons_append, List.dropWhile_cons, h x (List.mem_cons_self x t)]
    exact ih (fun y hy => h y (List.mem_cons_of_mem x hy))

theorem takeWhile_numSafe {rest : List Nat} (h : numSafe rest = true) :
    rest.takeWhile isDigit = [] := by
  cases rest with
  | nil => rfl
  | cons c t =>
    simp only [numSafe, Bool.not_eq_eq_eq_not, Bool.not_true] at h
    simp [List.takeWhile_cons, h]

theorem dropWhile_numSafe {rest : List Nat} (h : numSafe rest = true) :
    rest.dropWhile isDigit = rest := by
  cases rest with
  | nil => rfl
  | cons c t =>
    simp only [numSafe, Bool.not_eq_eq_eq_not, Bool.not_true] at h
    simp [List.dropWhile_cons, h]

theorem parseNatNum_natChars (n : Nat) {rest : List Nat} (h : numSafe rest = true) :
    parseNatNum (natChars n ++ rest) = some (n, rest) := by
  unfold parseNatNum
  rw [takeWhile_append_all rest (natChars_digits n), takeWhile_numSafe h,
    dropWhile_append_all rest (natChars_digits n), dropWhile_numSafe h,
    List.append_nil]
  simp [natChars_ne_nil n, List.isEmpty_iff, digitsToNat_natChars]

theorem parseNumber_intChars (n : Int) {rest : List Nat} (h : numSafe rest = true) :
    parseNumber (intChars n ++ rest) = some (n, rest) := by
  cases n with
  | ofNat m =>
    obtain ⟨c, cs, hc, hd⟩ := natChars_head m
    have hbound : 48 ≤ c ∧ c ≤ 57 := by
      simpa [isDigit, Bool.and_eq_true, decide_eq_true_eq] using hd
    show parseNumber (natChars m ++ rest) = some ((m : Int), rest)
    rw [hc]
    show parseNumber (c :: (cs ++ rest)) = _
    simp only [parseNumber]
    rw [if_neg (show ¬ c = 45 by omega)]
    have : c :: (cs ++ rest) = natChars m ++ rest := by rw [hc]; rfl
    rw [this, parseNatNum_natChars m h]
    rfl
  | negSucc m =>
    show parseNumber (45 :: (natChars (m + 1) ++ rest)) = _
    simp only [parseNumber, if_true]
    rw [parseNatNum_natChars (m + 1) h]
    rfl

/-! ### String parsing inverts string escaping -/

theorem hexVal_hexDigit : ∀ d < 16, hexVal (hexDigit d) = some d := by decide

theorem parseStringBody_escape (s : List Nat) : ∀ rest,
    parseStringBody (escapeChars s ++ (34 :: rest)) = some (s, rest) := by
  induction s with
  | nil =>
    intro rest
    simp [escapeChars, parseStringBody]
  | cons c t ih =>
    intro rest
    show parseStringBody ((escapeChar c ++ escapeChars t) ++ (34 :: rest)) = _
    rw [List.append_assoc]
    unfold escapeChar
    by_cases h34 : c = 34
    · subst h34; simp [parseStringBody, parseEscapeTail, ih rest]
    rw [if_neg h34]
    by_cases h92 : c = 92
    · subst h92; simp [parseStringBody, parseEscapeTail, ih rest]
    rw [if_neg h92]
    by_cases h8 : c = 8
    · subst h8; simp [parseStringBody, parseEscapeTail, ih rest]
    rw [if_neg h8]
    by_cases h9 : c = 9
    · subst h9; simp [parseStringBody, parseEscapeTail, ih rest]
    rw [if_neg h9]
    by_cases h10 : c = 10
    · subst h10; simp [parseStringBody, parseEscapeTail, ih rest]
    rw [if_neg h10]
    by_cases h12 : c = 12
    · subst h12; simp [parseStringBody, parseEscapeTail, ih rest]
    rw [if_neg h12]
    by_cases h13 : c = 13
    · subst h13; simp [parseStringBody, parseEscapeTail, ih rest]
    rw [if_neg h13]
    by_cases hctl : c < 32
    · rw [if_pos hctl]
      have hv1 : hexVal (hexDigit (c / 16)) = some (c / 16) :=
        hexVal_hexDigit (c / 16) (by omega)
      have hv2 : hexVal (hexDigit (c % 16)) = some (c % 16) :=
        hexVal_hexDigit (c % 16) (by omega)
      have hshape : ([92, 117, 48, 48, hexDigit (c / 16), hexDigit (c % 16)] : List Nat) ++
          (escapeChars t ++ 34 :: rest) =
          92 :: 117 :: 48 :: 48 :: hexDigit (c / 16) :: hexDigit (c % 16) ::
            (escapeChars t ++ 34 :: rest) := rfl
      rw [hshape]
      have hv0 : hexVal 48 = some 0 := rfl
      simp [parseStringBody, parseEscapeTail, hv0, hv1, hv2, ih rest]
      omega
    · rw [if_neg hctl]
      have hshape : ([c] : List Nat) ++ (escapeChars t ++ 34 :: rest) =
          c :: (escapeChars t ++ 34 :: rest) := rfl
      rw [hshape]
      simp only [parseStringBody, if_neg h34, if_neg h92]
      rw [ih rest]
      rfl

/-! ### Character classification of printed JSON -/

theorem hexDigit_ge48 (d : Nat) : 48 ≤ hexDigit d := by
  unfold hexDigit; split <;> omega

theorem escapeChar_ge32 (c : Nat) : ∀ x ∈ escapeChar c, 32 ≤ x := by
  unfold escapeChar
  split_ifs with h1 h2 h3 h4 h5 h6 h7 h8 <;> intro x hx
  all_goals
    simp only [List.mem_cons, List.mem_singleton, List.not_mem_nil, or_false] at hx
  · rcases hx with rfl | rfl <;> omega
  · rcases hx with rfl | rfl <;> omega
  · rcases hx with rfl | rfl <;> omega
  · rcases hx with rfl | rfl <;> omega
  · rcases hx with rfl | rfl <;> omega
  · rcases hx with rfl | rfl <;> omega
  · rcases hx with rfl | rfl <;> omega
  · have g1 := hexDigit_ge48 (c / 16)
    have g2 := hexDigit_ge48 (c % 16)
    rcases hx with rfl | rfl | rfl | rfl | rfl | rfl <;> omega
  · rcases hx with rfl; omega

theorem escapeChars_ge32 (s : List Nat) : ∀ x ∈ escapeChars s, 32 ≤ x := by
  induction s with
  | nil => intro x hx; simp [escapeChars] at hx
  | cons c t ih =>
    intro x hx
    simp only [escapeChars, List.mem_append] at hx
    rcases hx with hx | hx
    · exact escapeChar_ge32 c x hx
    · exact ih x hx

theorem natChars_ge32 (n : Nat) : ∀ x ∈ natChars n, 32 ≤ x := by
  intro x hx
  have := natChars_digits n x hx
  simp only [isDigit, Bool.and_eq_true, decide_eq_true_eq] at this
  omega

theorem intChars_ge32 (n : Int) : ∀ x ∈ intChars n, 32 ≤ x := by
  intro x hx
  cases n with
  | ofNat m => exact natChars_ge32 m x hx
  | negSucc m =>
    simp only [intChars, List.mem_cons] at hx
    rcases hx with rfl | hx
    · omega
    · exact natChars_ge32 (m + 1) x hx

mutual

theorem stringifyV_ge32 (v : JValue) : ∀ x ∈ stringifyV v, 32 ≤ x := by
  match v with
  | .null => intro x hx; simp only [stringifyV] at hx; fin_cases hx <;> omega
  | .bool true => intro x hx; simp only [stringifyV] at hx; fin_cases hx <;> omega
  | .bool false => intro x hx; simp only [stringifyV] at hx; fin_cases hx <;> omega
  | .num n => intro x hx; exact intChars_ge32 n x hx
  | .str s =>
    intro x hx
    simp only [stringifyV, List.mem_cons, List.mem_append, List.mem_singleton,
      List.not_mem_nil, or_false] at hx
    rcases hx with rfl | hx | rfl
    · omega
    · exact escapeChars_ge32 s x hx
    · omega
  | .arr xs =>
    intro x hx
    simp only [stringifyV, List.mem_cons] at hx
    rcases hx with rfl | hx
    · omega
    · exact stringifyElems_ge32 xs x hx
  | .obj kvs =>
    intro x hx
    simp only [stringifyV, List.mem_cons] at hx
    rcases hx with rfl | hx
    · omega
    · exact stringifyMembers_ge32 kvs x hx

theorem stringifyElems_ge32 (xs : JArray) : ∀ x ∈ stringifyElems xs, 32 ≤ x := by
  match xs with
  | .nil =>
    intro x hx
    simp only [stringifyElems, List.mem_singleton] at hx
    omega
  | .cons v .nil =>
    intro x hx
    simp only [stringifyElems, List.mem_append, List.mem_singleton, List.mem_cons,
      List.not_mem_nil, or_false] at hx
    rcases hx with hx | rfl
    · exact stringifyV_ge32 v x hx
    · omega
  | .cons v (.cons w ys) =>
    intro x hx
    simp only [stringifyElems, List.mem_append, List.mem_cons] at hx
    rcases hx with hx | rfl | hx
    · exact stringifyV_ge32 v x hx
    · omega
    · refine stringifyElems_ge32 (.cons w ys) x ?_
      simp only [stringifyElems, List.mem_append]
      exact hx

theorem stringifyMembers_ge32 (kvs : JObject) : ∀ x ∈ stringifyMembers kvs, 32 ≤ x := by
  match kvs with
  | .nil =>
    intro x hx
    simp only [stringifyMembers, List.mem_singleton] at hx
    omega
  | .cons k v .nil =>
    intro x hx
    simp only [stringifyMembers, List.cons_append, List.mem_cons, List.mem_append,
      List.mem_singleton, List.not_mem_nil, or_false] at hx
    rcases hx with rfl | hx
    · omega
    rcases hx with ((hx | rfl | rfl) | hx) | rfl
    · exact escapeChars_ge32 k x hx
    · omega
    · omega
    · exact stringifyV_ge32 v x hx
    · omega
  | .cons k v (.cons k2 v2 ys) =>
    intro x hx
    simp only [stringifyMembers, List.cons_append, List.mem_cons, List.mem_append,
      List.mem_singleton, List.not_mem_nil, or_false] at hx
    rcases hx with rfl | hx
    · omega
    rcases hx with ((hx | rfl | rfl) | hx) | rfl | hx
    · exact escapeChars_ge32 k x hx
    · omega
    · omega
    · exact stringifyV_ge32 v x hx
    · omega
    · refine stringifyMembers_ge32 (.cons k2 v2 ys) x ?_
      simp only [stringifyMembers, List.cons_append, List.mem_cons, List.mem_append,
        List.not_mem_nil, or_false]
      exact hx

end

/-- Possible first characters of a printed JSON value: the branch
dispatch characters of `parseValue`. -/
theorem stringifyV_head (v : JValue) : ∃ c cs, stringifyV v = c :: cs ∧
    (c = 110 ∨ c = 116 ∨ c = 102 ∨ c = 34 ∨ c = 91 ∨ c = 123 ∨ c = 45 ∨ isDigit c = true) := by
  match v with
  | .null => exact ⟨110, _, rfl, by tauto⟩
  | .bool true => exact ⟨116, _, rfl, by tauto⟩
  | .bool false => exact ⟨102, _, rfl, by tauto⟩
  | .num n =>
    cases n with
    | ofNat m =>
      obtain ⟨c, cs, hc, hd⟩ := natChars_head m
      exact ⟨c, cs, hc, by tauto⟩
    | negSucc m => exact ⟨45, _, rfl, by tauto⟩
  | .str s => exact ⟨34, _, rfl, by tauto⟩
  | .arr xs => exact ⟨91, _, rfl, by tauto⟩
  | .obj kvs => exact ⟨123, _, rfl, by tauto⟩

theorem stringifyV_ne_nil (v : JValue) : stringifyV v ≠ [] := by
  obtain ⟨c, cs, hc, _⟩ := stringifyV_head v
  rw [hc]
  exact List.cons_ne_nil c cs

/-! ### UTF-8 decoding inverts UTF-8 encoding -/

theorem utf8Encode_append (a b : List Nat) :
    utf8Encode (a ++ b) = utf8Encode a ++ utf8Encode b := by
  induction a with
  | nil => rfl
  | cons c t ih =>
    show utf8EncodeChar c ++ utf8Encode (t ++ b) = (utf8EncodeChar c ++ utf8Encode t) ++ _
    rw [ih, List.append_assoc]

theorem utf8Decode_cons (b : Nat) (rest : List Nat) :
    utf8Decode (b :: rest) =
      if b < 128 then b :: utf8Decode rest
      else if b < 224 then utf8Cont1 b rest
      else if b < 240 then utf8Cont2 b rest
      else utf8Cont3 b rest := by
  rfl

theorem utf8Cont1_cons (b b1 : Nat) (r : List Nat) :
    utf8Cont1 b (b1 :: r) = ((b - 192) * 64 + (b1 - 128)) :: utf8Decode r := by
  rfl

theorem utf8Cont2_cons (b b1 b2 : Nat) (r : List Nat) :
    utf8Cont2 b (b1 :: b2 :: r) =
      ((b - 224) * 4096 + (b1 - 128) * 64 + (b2 - 128)) :: utf8Decode r := by
  rfl

theorem utf8Cont3_cons (b b1 b2 b3 : Nat) (r : List Nat) :
    utf8Cont3 b (b1 :: b2 :: b3 :: r) =
      ((b - 240) * 262144 + (b1 - 128) * 4096 + (b2 - 128) * 64 + (b3 - 128)) ::
        utf8Decode r := by
  rfl

theorem utf8Decode_encodeChar (c : Nat) (rest : List Nat) :
    utf8Decode (utf8EncodeChar c ++ rest) = c :: utf8Decode rest := by
  unfold utf8EncodeChar
  split_ifs with h1 h2 h3
  · show utf8Decode (c :: rest) = _
    rw [utf8Decode_cons, if_pos h1]
  · show utf8Decode ((192 + c / 64) :: (128 + c % 64) :: rest) = _
    rw [utf8Decode_cons, if_neg (by omega), if_pos (by omega), utf8Cont1_cons]
    have : (192 + c / 64 - 192) * 64 + (128 + c % 64 - 128) = c := by omega
    rw [this]
  · show utf8Decode ((224 + c / 4096) :: (128 + c / 64 % 64) :: (128 + c % 64) :: rest) = _
    rw [utf8Decode_cons, if_neg (by omega), if_neg (by omega), if_pos (by omega),
      utf8Cont2_cons]
    have : (224 + c / 4096 - 224) * 4096 + (128 + c / 64 % 64 - 128) * 64 +
        (128 + c % 64 - 128) = c := by omega
    rw [this]
  · show utf8Decode ((240 + c / 262144) :: (128 + c / 4096 % 64) :: (128 + c / 64 % 64) ::
        (128 + c % 64) :: rest) = _
    rw [utf8Decode_cons, if_neg (by omega), if_neg (by omega), if_neg (by omega),
      utf8Cont3_cons]
    have : (240 + c / 262144 - 240) * 262144 + (128 + c / 4096 % 64 - 128) * 4096 +
        (128 + c / 64 % 64 - 128) * 64 + (128 + c % 64 - 128) = c := by omega
    rw [this]

theorem utf8Decode_encode_append (s rest : List Nat) :
    utf8Decode (utf8Encode s ++ rest) = s ++ utf8Decode rest := by
  induction s with
  | nil => rfl
  | cons c t ih =>
    show utf8Decode ((utf8EncodeChar c ++ utf8Encode t) ++ rest) = _
    rw [List.append_assoc, utf8Decode_encodeChar, ih]
    rfl

theorem utf8Decode_encode (s : List Nat) : utf8Decode (utf8Encode s) = s := by
  have h := utf8Decode_encode_append s []
  have h2 : utf8Decode ([] : List Nat) = [] := rfl
  rw [List.append_nil, h2, List.append_nil] at h
  exact h

theorem utf8EncodeChar_mem (c b : Nat) (hb : b ∈ utf8EncodeChar c) :
    b = c ∨ 128 ≤ b := by
  unfold utf8EncodeChar at hb
  split_ifs at hb <;>
    simp only [List.mem_cons, List.mem_singleton, List.not_mem_nil, or_false] at hb
  · left; exact hb
  · rcases hb with rfl | rfl <;> omega
  · rcases hb with rfl | rfl | rfl <;> omega
  · rcases hb with rfl | rfl | rfl | rfl <;> omega

/-- Bytes of the UTF-8 encoding of printable text are printable or
continuation bytes; in particular none is the frame marker 0x01. -/
theorem utf8Encode_ge32 (s : List Nat) (hs : ∀ c ∈ s, 32 ≤ c) :
    ∀ b ∈ utf8Encode s, 32 ≤ b := by
  induction s with
  | nil => intro b hb; simp [utf8Encode] at hb
  | cons c t ih =>
    intro b hb
    show 32 ≤ b
    have : b ∈ utf8EncodeChar c ++ utf8Encode t := hb
    rcases List.mem_append.mp this with hb1 | hb2
    · rcases utf8EncodeChar_mem c b hb1 with rfl | h
      · exact hs b (List.mem_cons_self b t)
      · omega
    · exact ih (fun x hx => hs x (List.mem_cons_of_mem c hx)) b hb2

theorem utf8EncodeChar_ne_nil (c : Nat) : utf8EncodeChar c ≠ [] := by
  unfold utf8EncodeChar
  split_ifs <;> simp

theorem utf8Encode_ne_nil (s : List Nat) (hs : s ≠ []) : utf8Encode s ≠ [] := by
  match s, hs with
  | c :: t, _ =>
    show utf8EncodeChar c ++ utf8Encode t ≠ []
    simp [utf8EncodeChar_ne_nil c]

/-! ### The parser inverts the printer -/

theorem sizeV_pos (v : JValue) : 1 ≤ sizeV v := by
  cases v <;> simp [sizeV]

theorem sizeA_pos (xs : JArray) : 1 ≤ sizeA xs := by
  cases xs <;> simp [sizeA] <;> omega

theorem sizeO_pos (kvs : JObject) : 1 ≤ sizeO kvs := by
  cases kvs <;> simp [sizeO] <;> omega

theorem sizeV_arr_eq (xs : JArray) : sizeV (.arr xs) = sizeA xs + 1 := rfl

theorem sizeV_obj_eq (kvs : JObject) : sizeV (.obj kvs) = sizeO kvs + 1 := rfl

theorem sizeA_cons_eq (v : JValue) (xs : JArray) :
    sizeA (.cons v xs) = sizeV v + sizeA xs + 1 := rfl

theorem sizeO_cons_eq (k : List Nat) (v : JValue) (kvs : JObject) :
    sizeO (.cons k v kvs) = sizeV v + sizeO kvs + 1 := rfl

theorem parseValue_digit (fuel c : Nat) (s : List Nat) (hd : isDigit c = true) :
    parseValue (fuel + 1) (c :: s) =
      (parseNumber (c :: s)).map (fun p => (.num p.1, p.2)) := by
  have hb : 48 ≤ c ∧ c ≤ 57 := by
    simpa [isDigit, Bool.and_eq_true, decide_eq_true_eq] using hd
  simp only [parseValue]
  rw [if_neg (by omega), if_neg (by omega), if_neg (by omega), if_neg (by omega),
    if_neg (by omega), if_neg (by omega), if_pos (by simp [hd])]

theorem parseValue_minus (fuel : Nat) (s : List Nat) :
    parseValue (fuel + 1) (45 :: s) =
      (parseNumber (45 :: s)).map (fun p => (.num p.1, p.2)) := by
  simp only [parseValue]
  rw [if_neg (by omega), if_neg (by omega), if_neg (by omega), if_neg (by omega),
    if_neg (by omega), if_neg (by omega), if_pos (by simp)]

theorem parseValue_arr_cons (fuel c : Nat) (t : List Nat) (hc : c ≠ 93) :
    parseValue (fuel + 1) (91 :: c :: t) =
      (parseElems fuel (c :: t)).map (fun p => (.arr p.1, p.2)) := by
  simp only [parseValue]
  rw [if_neg (by omega), if_neg (by omega), if_neg (by omega), if_neg (by omega),
    if_pos trivial]
  split
  · rename_i r heq
    exact absurd (List.head_eq_of_cons_eq heq) hc
  · rfl

theorem parseValue_obj_cons (fuel c : Nat) (t : List Nat) (hc : c ≠ 125) :
    parseValue (fuel + 1) (123 :: c :: t) =
      (parseMembers fuel (c :: t)).map (fun p => (.obj p.1, p.2)) := by
  simp only [parseValue]
  rw [if_neg (by omega), if_neg (by omega), if_neg (by omega), if_neg (by omega),
    if_neg (by omega), if_pos trivial]
  split
  · rename_i r heq
    exact absurd (List.head_eq_of_cons_eq heq) hc
  · rfl

mutual

theorem parse_stringifyV (v : JValue) : ∀ fuel rest, sizeV v ≤ fuel → numSafe rest = true →
    parseValue fuel (stringifyV v ++ rest) = some (v, rest) := by
  match v with
  | .null =>
    intro fuel rest hf hr
    obtain ⟨f, rfl⟩ : ∃ f, fuel = f + 1 := ⟨fuel - 1, by simp [sizeV] at hf; omega⟩
    show parseValue (f + 1) (110 :: 117 :: 108 :: 108 :: rest) = _
    simp [parseValue]
  | .bool true =>
    intro fuel rest hf hr
    obtain ⟨f, rfl⟩ : ∃ f, fuel = f + 1 := ⟨fuel - 1, by simp [sizeV] at hf; omega⟩
    show parseValue (f + 1) (116 :: 114 :: 117 :: 101 :: rest) = _
    simp [parseValue]
  | .bool false =>
    intro fuel rest hf hr
    obtain ⟨f, rfl⟩ : ∃ f, fuel = f + 1 := ⟨fuel - 1, by simp [sizeV] at hf; omega⟩
    show parseValue (f + 1) (102 :: 97 :: 108 :: 115 :: 101 :: rest) = _
    simp [parseValue]
  | .num n =>
    intro fuel rest hf hr
    obtain ⟨f, rfl⟩ : ∃ f, fuel = f + 1 := ⟨fuel - 1, by simp [sizeV] at hf; omega⟩
    cases n with
    | ofNat m =>
      obtain ⟨c, cs, hc, hd⟩ := natChars_head m
      show parseValue (f + 1) (natChars m ++ rest) = _
      rw [hc]
      show parseValue (f + 1) (c :: (cs ++ rest)) = _
      rw [parseValue_digit f c _ hd]
      have hback : c :: (cs ++ rest) = natChars m ++ rest := by rw [hc]; rfl
      rw [hback]
      have : parseNumber (natChars m ++ rest) = some ((Int.ofNat m), rest) :=
        parseNumber_intChars (Int.ofNat m) hr
      rw [this]
      rfl
    | negSucc m =>
      show parseValue (f + 1) (45 :: (natChars (m + 1) ++ rest)) = _
      rw [parseValue_minus]
      have : parseNumber (45 :: (natChars (m + 1) ++ rest)) =
          some ((Int.negSucc m), rest) := parseNumber_intChars (Int.negSucc m) hr
      rw [this]
      rfl
  | .str s =>
    intro fuel rest hf hr
    obtain ⟨f, rfl⟩ : ∃ f, fuel = f + 1 := ⟨fuel - 1, by simp [sizeV] at hf; omega⟩
    show parseValue (f + 1) (34 :: ((escapeChars s ++ [34]) ++ rest)) = _
    rw [List.append_assoc]
    show parseValue (f + 1) (34 :: (escapeChars s ++ (34 :: rest))) = _
    simp only [parseValue]
    rw [if_neg (by omega), if_neg (by omega), if_neg (by omega), if_pos trivial,
      parseStringBody_escape s rest]
    rfl
  | .arr .nil =>
    intro fuel rest hf hr
    obtain ⟨f, rfl⟩ : ∃ f, fuel = f + 1 := ⟨fuel - 1, by simp [sizeV, sizeA] at hf; omega⟩
    show parseValue (f + 1) (91 :: 93 :: rest) = _
    simp [parseValue]
  | .arr (.cons w xs) =>
    intro fuel rest hf hr
    obtain ⟨f, rfl⟩ : ∃ f, fuel = f + 1 := ⟨fuel - 1, by
      have := sizeV_pos w; have := sizeA_pos xs; simp [sizeV, sizeA] at hf; omega⟩
    show parseValue (f + 1) (91 :: (stringifyElems (.cons w xs) ++ rest)) = _
    obtain ⟨c, cs, hc, hh⟩ := stringifyV_head w
    have hcne : c ≠ 93 := by
      rcases hh with rfl | rfl | rfl | rfl | rfl | rfl | rfl | hd
      all_goals try omega
      simp only [isDigit, Bool.and_eq_true, decide_eq_true_eq] at hd
      omega
    obtain ⟨t, ht⟩ : ∃ t, stringifyElems (.cons w xs) ++ rest = c :: t := by
      simp only [stringifyElems, hc, List.cons_append, List.append_assoc]
      exact ⟨_, rfl⟩
    rw [ht, parseValue_arr_cons f c t hcne, ← ht,
      parse_stringifyElems w xs f rest
        (by have := sizeV_pos w; have := sizeA_pos xs; simp [sizeV, sizeA] at hf ⊢; omega) hr]
    rfl
  | .obj .nil =>
    intro fuel rest hf hr
    obtain ⟨f, rfl⟩ : ∃ f, fuel = f + 1 := ⟨fuel - 1, by simp [sizeV, sizeO] at hf; omega⟩
    show parseValue (f + 1) (123 :: 125 :: rest) = _
    simp [parseValue]
  | .obj (.cons k w kvs) =>
    intro fuel rest hf hr
    obtain ⟨f, rfl⟩ : ∃ f, fuel = f + 1 := ⟨fuel - 1, by
      have := sizeV_pos w; have := sizeO_pos kvs; simp [sizeV, sizeO] at hf; omega⟩
    show parseValue (f + 1) (123 :: (stringifyMembers (.cons k w kvs) ++ rest)) = _
    obtain ⟨t, ht⟩ : ∃ t, stringifyMembers (.cons k w kvs) ++ rest = 34 :: t := by
      simp only [stringifyMembers, List.cons_append, List.append_assoc]
      exact ⟨_, rfl⟩
    rw [ht, parseValue_obj_cons f 34 t (by omega), ← ht,
      parse_stringifyMembers k w kvs f rest
        (by have := sizeV_pos w; have := sizeO_pos kvs; simp [sizeV, sizeO] at hf ⊢; omega) hr]
    rfl
termination_by sizeV v
decreasing_by
  all_goals
    simp only [sizeV_arr_eq, sizeV_obj_eq, sizeA_cons_eq, sizeO_cons_eq]
    try have hp1 := sizeV_pos w
    try have hp2 := sizeA_pos xs
    try have hp3 := sizeO_pos kvs
    try have hp4 := sizeV_pos w2
    try have hp5 := sizeA_pos ys
    try have hp6 := sizeO_pos ys
    omega

theorem parse_stringifyElems (w : JValue) (xs : JArray) : ∀ fuel rest,
    sizeA (.cons w xs) ≤ fuel → numSafe rest = true →
    parseElems fuel (stringifyElems (.cons w xs) ++ rest) = some (.cons w xs, rest) := by
  match xs with
  | .nil =>
    intro fuel rest hf hr
    obtain ⟨f, rfl⟩ : ∃ f, fuel = f + 1 := ⟨fuel - 1, by
      have := sizeV_pos w; simp [sizeA] at hf; omega⟩
    show parseElems (f + 1) ((stringifyV w ++ [93]) ++ rest) = _
    rw [List.append_assoc]
    show parseElems (f + 1) (stringifyV w ++ (93 :: rest)) = _
    simp only [parseElems]
    rw [parse_stringifyV w f (93 :: rest)
      (by have := sizeA_pos JArray.nil; simp [sizeA] at hf; omega) rfl]
  | .cons w2 ys =>
    intro fuel rest hf hr
    obtain ⟨f, rfl⟩ : ∃ f, fuel = f + 1 := ⟨fuel - 1, by
      have := sizeV_pos w; have := sizeA_pos ys; simp [sizeA] at hf; omega⟩
    show parseElems (f + 1) ((stringifyV w ++ (44 :: stringifyElems (.cons w2 ys))) ++ rest) = _
    rw [List.append_assoc]
    show parseElems (f + 1)
        (stringifyV w ++ (44 :: (stringifyElems (.cons w2 ys) ++ rest))) = _
    simp only [parseElems]
    rw [parse_stringifyV w f (44 :: (stringifyElems (.cons w2 ys) ++ rest))
      (by have := sizeV_pos w2; have := sizeA_pos ys; simp [sizeA] at hf; omega) rfl]
    show Option.map _ (parseElems f (stringifyElems (.cons w2 ys) ++ rest)) = _
    rw [parse_stringifyElems w2 ys f rest
      (by have := sizeV_pos w; simp [sizeA] at hf ⊢; omega) hr]
    rfl
termination_by sizeA (.cons w xs)
decreasing_by
  all_goals
    simp only [sizeV_arr_eq, sizeV_obj_eq, sizeA_cons_eq, sizeO_cons_eq]
    try have hp1 := sizeV_pos w
    try have hp2 := sizeA_pos xs
    try have hp3 := sizeO_pos kvs
    try have hp4 := sizeV_pos w2
    try have hp5 := sizeA_pos ys
    try have hp6 := sizeO_pos ys
    omega

theorem parse_stringifyMembers (k : List Nat) (w : JValue) (kvs : JObject) : ∀ fuel rest,
    sizeO (.cons k w kvs) ≤ fuel → numSafe rest = true →
    parseMembers fuel (stringifyMembers (.cons k w kvs) ++ rest) =
      some (.cons k w kvs, rest) := by
  match kvs with
  | .nil =>
    intro fuel rest hf hr
    obtain ⟨f, rfl⟩ : ∃ f, fuel = f + 1 := ⟨fuel - 1, by
      have := sizeV_pos w; simp [sizeO] at hf; omega⟩
    show parseMembers (f + 1)
        ((34 :: (escapeChars k ++ [34, 58]) ++ stringifyV w ++ [125]) ++ rest) = _
    have hshape : (34 :: (escapeChars k ++ [34, 58]) ++ stringifyV w ++ [125]) ++ rest =
        34 :: (escapeChars k ++ (34 :: (58 :: (stringifyV w ++ (125 :: rest))))) := by
      simp [List.cons_append, List.append_assoc]
    rw [hshape]
    simp only [parseMembers]
    rw [parseStringBody_escape k (58 :: (stringifyV w ++ (125 :: rest)))]
    show (match parseValue f (stringifyV w ++ (125 :: rest)) with
      | some (v, 44 :: r1) => (parseMembers f r1).map (fun p : JObject × List Nat => (JObject.cons k v p.1, p.2))
      | some (v, 125 :: r1) => some (JObject.cons k v .nil, r1)
      | _ => none) = _
    rw [parse_stringifyV w f (125 :: rest)
      (by simp [sizeO] at hf; omega) rfl]
  | .cons k2 w2 ys =>
    intro fuel rest hf hr
    obtain ⟨f, rfl⟩ : ∃ f, fuel = f + 1 := ⟨fuel - 1, by
      have := sizeV_pos w; have := sizeO_pos ys; simp [sizeO] at hf; omega⟩
    show parseMembers (f + 1)
        ((34 :: (escapeChars k ++ [34, 58]) ++ stringifyV w ++
          (44 :: stringifyMembers (.cons k2 w2 ys))) ++ rest) = _
    have hshape : (34 :: (escapeChars k ++ [34, 58]) ++ stringifyV w ++
          (44 :: stringifyMembers (.cons k2 w2 ys))) ++ rest =
        34 :: (escapeChars k ++ (34 :: (58 :: (stringifyV w ++
          (44 :: (stringifyMembers (.cons k2 w2 ys) ++ rest)))))) := by
      simp [List.cons_append, List.append_assoc]
    rw [hshape]
    simp only [parseMembers]
    rw [parseStringBody_escape k
      (58 :: (stringifyV w ++ (44 :: (stringifyMembers (.cons k2 w2 ys) ++ rest))))]
    show (match parseValue f (stringifyV w ++
        (44 :: (stringifyMembers (.cons k2 w2 ys) ++ rest))) with
      | some (v, 44 :: r1) => (parseMembers f r1).map (fun p : JObject × List Nat => (JObject.cons k v p.1, p.2))
      | some (v, 125 :: r1) => some (JObject.cons k v .nil, r1)
      | _ => none) = _
    rw [parse_stringifyV w f (44 :: (stringifyMembers (.cons k2 w2 ys) ++ rest))
      (by have := sizeV_pos w2; have := sizeO_pos ys; simp [sizeO] at hf; omega) rfl]
    show Option.map _ (parseMembers f (stringifyMembers (.cons k2 w2 ys) ++ rest)) = _
    rw [parse_stringifyMembers k2 w2 ys f rest
      (by have := sizeV_pos w; simp [sizeO] at hf ⊢; omega) hr]
    rfl
termination_by sizeO (.cons k w kvs)
decreasing_by
  all_goals
    simp only [sizeV_arr_eq, sizeV_obj_eq, sizeA_cons_eq, sizeO_cons_eq]
    try have hp1 := sizeV_pos w
    try have hp2 := sizeA_pos xs
    try have hp3 := sizeO_pos kvs
    try have hp4 := sizeV_pos w2
    try have hp5 := sizeA_pos ys
    try have hp6 := sizeO_pos ys
    omega

end

mutual

theorem sizeV_le_len (v : JValue) : sizeV v ≤ 2 * (stringifyV v).length := by
  match v with
  | .null => simp [sizeV, stringifyV]
  | .bool true => simp [sizeV, stringifyV]
  | .bool false => simp [sizeV, stringifyV]
  | .num n =>
    have h : (stringifyV (.num n)).length ≠ 0 := by
      simpa [List.length_eq_zero] using stringifyV_ne_nil (.num n)
    simp only [sizeV]
    omega
  | .str s =>
    show sizeV (.str s) ≤ 2 * (34 :: (escapeChars s ++ [34])).length
    simp [sizeV]
    omega
  | .arr xs =>
    have h := sizeA_le_len xs
    show sizeA xs + 1 ≤ 2 * (91 :: stringifyElems xs).length
    simp only [List.length_cons]
    omega
  | .obj kvs =>
    have h := sizeO_le_len kvs
    show sizeO kvs + 1 ≤ 2 * (123 :: stringifyMembers kvs).length
    simp only [List.length_cons]
    omega

theorem sizeA_le_len (xs : JArray) : sizeA xs ≤ 2 * (stringifyElems xs).length + 1 := by
  match xs with
  | .nil => simp [sizeA, stringifyElems]
  | .cons v .nil =>
    have h := sizeV_le_len v
    show sizeV v + sizeA .nil + 1 ≤ 2 * (stringifyV v ++ [93]).length + 1
    simp only [List.length_append, List.length_singleton, sizeA]
    omega
  | .cons v (.cons w ys) =>
    have h1 := sizeV_le_len v
    have h2 := sizeA_le_len (.cons w ys)
    show sizeV v + sizeA (.cons w ys) + 1 ≤
      2 * (stringifyV v ++ (44 :: stringifyElems (.cons w ys))).length + 1
    simp only [List.length_append, List.length_cons]
    omega

theorem sizeO_le_len (kvs : JObject) : sizeO kvs ≤ 2 * (stringifyMembers kvs).length + 1 := by
  match kvs with
  | .nil => simp [sizeO, stringifyMembers]
  | .cons k v .nil =>
    have h := sizeV_le_len v
    show sizeV v + sizeO .nil + 1 ≤
      2 * ((34 :: (escapeChars k ++ [34, 58]) ++ stringifyV v ++ [125]) : List Nat).length + 1
    simp only [List.length_append, List.length_cons, List.length_singleton, sizeO]
    omega
  | .cons k v (.cons k2 w ys) =>
    have h1 := sizeV_le_len v
    have h2 := sizeO_le_len (.cons k2 w ys)
    show sizeV v + sizeO (.cons k2 w ys) + 1 ≤
      2 * ((34 :: (escapeChars k ++ [34, 58]) ++ stringifyV v ++
        (44 :: stringifyMembers (.cons k2 w ys))) : List Nat).length + 1
    simp only [List.length_append, List.length_cons]
    omega

end

/-- The model JSON parser inverts the model JSON printer. -/
theorem jsonParse_stringifyV (v : JValue) : jsonParse (stringifyV v) = some v := by
  unfold jsonParse
  have hsz : sizeV v ≤ 2 * (stringifyV v).length + 1 := by
    have := sizeV_le_len v
    omega
  have h := parse_stringifyV v (2 * (stringifyV v).length + 1) [] hsz rfl
  rw [List.append_nil] at h
  rw [h]

/-- Revival of a serialized byte array: parsing the number array and
taking each element through ToUint8 restores the original bytes. -/
theorem reviveList_bytesToJArray (b : List Nat) (hb : ∀ x ∈ b, x < 256) :
    reviveList (bytesToJArray b) = b := by
  induction b with
  | nil => rfl
  | cons x t ih =>
    show ((x : Int) % 256).toNat :: reviveList (bytesToJArray t) = x :: t
    rw [ih (fun y hy => hb y (List.mem_cons_of_mem x hy))]
    have hx : x < 256 := hb x (List.mem_cons_self x t)
    have : ((x : Int) % 256) = (x : Int) := by omega
    rw [this]
    simp

/-- Payload round-trip: deserializeData inverts serializeData on every
well-formed value (the raw flag revives the number array back into the
original byte sequence). -/
theorem deserializeData_serializeData (d : SerializableData) (h : wfData d = true) :
    deserializeData (serializeData d).1 (serializeData d).2 = .ok d := by
  cases d with
  | json v =>
    show deserializeData (utf8Encode (stringifyV v)) false = _
    unfold deserializeData
    rw [utf8Decode_encode, jsonParse_stringifyV v]
    rfl
  | bytes b =>
    show deserializeData (utf8Encode (stringifyV (.arr (bytesToJArray b)))) true = _
    unfold deserializeData
    rw [utf8Decode_encode, jsonParse_stringifyV (.arr (bytesToJArray b))]
    show Except.ok (SerializableData.bytes (reviveBytes (JValue.arr (bytesToJArray b)))) =
      Except.ok (SerializableData.bytes b)
    rw [show reviveBytes (.arr (bytesToJArray b)) = reviveList (bytesToJArray b) from rfl,
      reviveList_bytesToJArray b (by simpa [wfData, List.all_eq_true] using h)]

/-! ### Header codec lemmas -/

theorem headerToArray_ok (h : Header) (h0 : 0 ≤ h.id) (h250 : h.id ≤ 250) :
    headerToArray h =
      .ok [1, (h.id + 5).toNat, boolNum h.endFlag + 5, boolNum h.dataIsRaw + 5] := by
  unfold headerToArray
  rw [if_neg (by simp only [MAX_UINT8, NUMBER_OFFSET]; norm_num; omega)]
  norm_num [NUMBER_OFFSET]

theorem arrayToHeader_encode (h : Header) (h0 : 0 ≤ h.id) (h250 : h.id ≤ 250)
    (data : List Nat) :
    arrayToHeader ([1, (h.id + 5).toNat, boolNum h.endFlag + 5, boolNum h.dataIsRaw + 5] ++
      data) = .ok h := by
  unfold arrayToHeader
  rw [if_neg (by simp [HEADER_LENGTH])]
  rw [if_neg (by simp [List.getD])]
  have hid : ((([1, (h.id + 5).toNat, boolNum h.endFlag + 5, boolNum h.dataIsRaw + 5] ++
      data).getD 1 0 : Int)) - NUMBER_OFFSET = h.id := by
    show (((h.id + 5).toNat : Int)) - NUMBER_OFFSET = h.id
    simp only [NUMBER_OFFSET]
    omega
  have hend : decide ((([1, (h.id + 5).toNat, boolNum h.endFlag + 5,
      boolNum h.dataIsRaw + 5] ++ data).getD 2 0 : Int) - NUMBER_OFFSET ≠ 0) = h.endFlag := by
    show decide (((boolNum h.endFlag + 5 : Nat) : Int) - NUMBER_OFFSET ≠ 0) = h.endFlag
    cases hE : h.endFlag <;> simp [boolNum, NUMBER_OFFSET]
  have hraw : decide ((([1, (h.id + 5).toNat, boolNum h.endFlag + 5,
      boolNum h.dataIsRaw + 5] ++ data).getD 3 0 : Int) - NUMBER_OFFSET ≠ 0) = h.dataIsRaw := by
    show decide (((boolNum h.dataIsRaw + 5 : Nat) : Int) - NUMBER_OFFSET ≠ 0) = h.dataIsRaw
    cases hR : h.dataIsRaw <;> simp [boolNum, NUMBER_OFFSET]
  rw [hid, hend, hraw]

theorem headerToArray_err (h : Header) (hout : h.id > 250 ∨ h.id < 0) :
    headerToArray h = .error "stream id must be a number between 0 and 250" := by
  unfold headerToArray
  rw [if_pos (by simp only [MAX_UINT8, NUMBER_OFFSET]; norm_num; omega)]

/-- The encoded header bytes: the marker, then three bytes that are
all at least 5 (so none is the marker). -/
theorem headerToArray_shape (h : Header) (h0 : 0 ≤ h.id) (h250 : h.id ≤ 250) :
    ∃ b1 b2 b3, headerToArray h = .ok [1, b1, b2, b3] ∧ 5 ≤ b1 ∧ 5 ≤ b2 ∧ 5 ≤ b3 := by
  refine ⟨(h.id + 5).toNat, boolNum h.endFlag + 5, boolNum h.dataIsRaw + 5,
    headerToArray_ok h h0 h250, by omega, by simp [boolNum], by simp [boolNum]⟩

/-! ### Marker-scan reassembly lemmas -/

theorem gmcGo_marker (rest : List Nat) (hbr : Nat) (done : List (List Nat)) :
    getMuxedChunksGo (1 :: rest) hbr none done =
      getMuxedChunksGo rest HEADER_LENGTH (some [1]) done := by
  simp [getMuxedChunksGo]

theorem gmcGo_marker_some (rest : List Nat) (hbr : Nat) (c : List Nat)
    (done : List (List Nat)) :
    getMuxedChunksGo (1 :: rest) hbr (some c) done =
      getMuxedChunksGo rest HEADER_LENGTH (some [1]) (done ++ [c]) := by
  simp [getMuxedChunksGo]

theorem gmcGo_nonmarker (b : Nat) (hb : b ≠ 1) (rest : List Nat) (hbr : Nat)
    (c : List Nat) (done : List (List Nat)) :
    getMuxedChunksGo (b :: rest) hbr (some c) done =
      getMuxedChunksGo rest (if hbr > 0 then hbr - 1 else hbr) (some (c ++ [b])) done := by
  simp [getMuxedChunksGo, hb]

theorem gmcGo_hbr_irrel (bytes : List Nat) : ∀ hbr1 hbr2 cur done,
    getMuxedChunksGo bytes hbr1 cur done = getMuxedChunksGo bytes hbr2 cur done := by
  induction bytes with
  | nil => intro hbr1 hbr2 cur done; cases cur <;> rfl
  | cons byte rest ih =>
    intro hbr1 hbr2 cur done
    by_cases hb : byte = 1
    · subst hb
      cases cur with
      | none => rw [gmcGo_marker, gmcGo_marker]
      | some c => rw [gmcGo_marker_some, gmcGo_marker_some]
    · cases cur with
      | none => simp [getMuxedChunksGo, hb]
      | some c =>
        rw [gmcGo_nonmarker byte hb, gmcGo_nonmarker byte hb]
        exact ih _ _ _ _

theorem gmcGo_absorb (t : List Nat) (h1 : (1 : Nat) ∉ t) : ∀ rest hbr hbr2 c done,
    getMuxedChunksGo (t ++ rest) hbr (some c) done =
      getMuxedChunksGo rest hbr2 (some (c ++ t)) done := by
  induction t with
  | nil =>
    intro rest hbr hbr2 c done
    rw [List.append_nil, List.nil_append]
    exact gmcGo_hbr_irrel rest hbr hbr2 _ _
  | cons b t' ih =>
    intro rest hbr hbr2 c done
    have hb : b ≠ 1 := fun hh => h1 (hh ▸ List.mem_cons_self b t')
    have ht' : (1 : Nat) ∉ t' := fun hh => h1 (List.mem_cons_of_mem b hh)
    show getMuxedChunksGo (b :: (t' ++ rest)) hbr (some c) done = _
    rw [gmcGo_nonmarker b hb, ih ht' rest _ hbr2 (c ++ [b]) done, List.append_assoc]
    rfl

theorem gmcGo_frames (frames : List (List Nat)) (hwf : ∀ f ∈ frames, WellFormedFrame f) :
    ∀ hbr c done, getMuxedChunksGo frames.flatten hbr (some c) done =
      some (done ++ [c] ++ frames) := by
  induction frames with
  | nil =>
    intro hbr c done
    show some (done ++ [c]) = some (done ++ [c] ++ [])
    rw [List.append_nil]
  | cons f rest ih =>
    intro hbr c done
    obtain ⟨t, rfl, h1t⟩ := hwf f (List.mem_cons_self f rest)
    show getMuxedChunksGo (((1 : Nat) :: t) ++ rest.flatten) hbr (some c) done = _
    rw [List.cons_append, gmcGo_marker_some, gmcGo_absorb t h1t rest.flatten _ 0 [1]
      (done ++ [c]), ih (fun g hg => hwf g (List.mem_cons_of_mem _ hg)) 0 _ _]
    simp

theorem gmcGo_frames_none (frames : List (List Nat))
    (hwf : ∀ f ∈ frames, WellFormedFrame f) :
    ∀ hbr done, getMuxedChunksGo frames.flatten hbr none done = some (done ++ frames) := by
  intro hbr done
  cases frames with
  | nil => show some done = some (done ++ []); rw [List.append_nil]
  | cons f rest =>
    obtain ⟨t, rfl, h1t⟩ := hwf f (List.mem_cons_self f rest)
    show getMuxedChunksGo (((1 : Nat) :: t) ++ rest.flatten) hbr none done = _
    rw [List.cons_append, gmcGo_marker, gmcGo_absorb t h1t rest.flatten _ 0 [1] done,
      gmcGo_frames rest (fun g hg => hwf g (List.mem_cons_of_mem _ hg)) 0 _ _]
    simp

/-- The reassembly scan recovers the frames from their
concatenation. -/
theorem getMuxedChunks_flatten (frames : List (List Nat))
    (hwf : ∀ f ∈ frames, WellFormedFrame f) :
    getMuxedChunks frames.flatten = some frames := by
  show getMuxedChunksGo frames.flatten 0 none [] = some frames
  rw [gmcGo_frames_none frames hwf 0 []]
  rfl

theorem getMuxedChunks_single (f : List Nat) (hwf : WellFormedFrame f) :
    getMuxedChunks f = some [f] := by
  have h := getMuxedChunks_flatten [f] (by intro g hg; simp at hg; subst hg; exact hwf)
  simpa using h

/-! ### Small list lemmas used by the demux invariant -/

theorem getD_set_self {α : Type} (l : List α) (i : Nat) (a d : α) (h : i < l.length) :
    (l.set i a).getD i d = a := by
  induction l generalizing i with
  | nil => simp at h
  | cons x t ih =>
    cases i with
    | zero => rfl
    | succ j => exact ih j (by simpa using h)

theorem getD_set_ne {α : Type} (l : List α) (i j : Nat) (a d : α) (h : i ≠ j) :
    (l.set i a).getD j d = l.getD j d := by
  induction l generalizing i j with
  | nil => simp
  | cons x t ih =>
    cases i with
    | zero =>
      cases j with
      | zero => exact absurd rfl h
      | succ j2 => rfl
    | succ i2 =>
      cases j with
      | zero => rfl
      | succ j2 => exact ih i2 j2 (by omega)

theorem getD_replicate {α : Type} (n i : Nat) (a d : α) (h : i < n) :
    (List.replicate n a).getD i d = a := by
  induction n generalizing i with
  | zero => omega
  | succ m ih =>
    cases i with
    | zero => rfl
    | succ j => exact ih j (by omega)

theorem list_eq_of_getD {α : Type} (d : α) (l1 l2 : List α) (hlen : l1.length = l2.length)
    (h : ∀ i, i < l1.length → l1.getD i d = l2.getD i d) : l1 = l2 := by
  induction l1 generalizing l2 with
  | nil => cases l2 with
    | nil => rfl
    | cons y t2 => simp at hlen
  | cons x t ih =>
    cases l2 with
    | nil => simp at hlen
    | cons y t2 =>
      have hx : x = y := h 0 (by simp)
      have ht : t = t2 := by
        refine ih t2 (by simpa using hlen) ?_
        intro i hi
        exact h (i + 1) (by simpa using Nat.succ_lt_succ hi)
      rw [hx, ht]

theorem getD_mem {α : Type} (l : List α) (i : Nat) (d : α) (h : i < l.length) :
    l.getD i d ∈ l := by
  induction l generalizing i with
  | nil => simp at h
  | cons x t ih =>
    cases i with
    | zero => exact List.mem_cons_self x t
    | succ j => exact List.mem_cons_of_mem x (ih j (by simpa using h))

/-! ### Serialized frames -/

theorem serializeData_data_eq (d : SerializableData) :
    (serializeData d).1 = utf8Encode (stringifyV (dataJValue d)) := by
  cases d <;> rfl

/-- The serialized payload is never empty (every JSON text has at
least one character). -/
theorem serializeData_ne_nil (d : SerializableData) : (serializeData d).1 ≠ [] := by
  rw [serializeData_data_eq]
  exact utf8Encode_ne_nil _ (stringifyV_ne_nil _)

/-- No payload byte is the frame marker 0x01: every character of the
JSON text is printable (at least 0x20) and UTF-8 continuation or lead
bytes are at least 0x80. -/
theorem serializeData_ge32 (d : SerializableData) : ∀ b ∈ (serializeData d).1, 32 ≤ b := by
  rw [serializeData_data_eq]
  exact utf8Encode_ge32 _ (stringifyV_ge32 _)

/-- The chunk the muxer enqueues for data `v` on stream `id` is a
well-formed frame whose header decodes back, and whose payload is the
serialized data. -/
theorem serializeChunk_ok (id : Nat) (endB : Bool) (v : SerializableData)
    (h250 : id ≤ 250) :
    ∃ frame, serializeChunk (id : Int) endB v = .ok (some frame) ∧
      WellFormedFrame frame ∧
      arrayToHeader frame =
        .ok { id := (id : Int), endFlag := endB, dataIsRaw := (serializeData v).2 } ∧
      frame.drop HEADER_LENGTH = (serializeData v).1 := by
  have h0 : (0 : Int) ≤ (id : Int) := by omega
  have h250i : (id : Int) ≤ 250 := by omega
  have hne : (serializeData v).1.length ≠ 0 := by
    simpa [List.length_eq_zero] using serializeData_ne_nil v
  obtain ⟨b1, b2, b3, hok, hb1, hb2, hb3⟩ :=
    headerToArray_shape { id := (id : Int), endFlag := endB, dataIsRaw := (serializeData v).2 }
      h0 h250i
  refine ⟨[1, b1, b2, b3] ++ (serializeData v).1, ?_, ?_, ?_, ?_⟩
  · unfold serializeChunk
    rw [if_neg hne]
    rw [hok]
    rfl
  · refine ⟨b1 :: b2 :: b3 :: (serializeData v).1, rfl, ?_⟩
    intro hmem
    simp only [List.mem_cons, List.mem_append] at hmem
    rcases hmem with h | h | h | h
    · omega
    · omega
    · omega
    · have := serializeData_ge32 v 1 h
      omega
  · have := arrayToHeader_encode
      { id := (id : Int), endFlag := endB, dataIsRaw := (serializeData v).2 } h0 h250i
      (serializeData v).1
    have hshape : [1, ((id : Int) + 5).toNat,
        boolNum endB + 5, boolNum (serializeData v).2 + 5] = [1, b1, b2, b3] := by
      have := headerToArray_ok
        { id := (id : Int), endFlag := endB, dataIsRaw := (serializeData v).2 } h0 h250i
      rw [this] at hok
      exact Except.ok.inj hok
    rw [← hshape]
    exact this
  · rfl

/-! ### Behavior of the demuxer on serialized frames -/

theorem processFrame_serialized (count : Nat) (st : DemuxState) (i : Nat) (endB : Bool)
    (v : SerializableData) (hi : i < count) (h250 : i ≤ 250) (hwf : wfData v = true)
    (hcl : st.closed.getD i false = false) :
    ∃ frame, serializeChunk (i : Int) endB v = .ok (some frame) ∧ WellFormedFrame frame ∧
      processFrame count st frame =
        .ok (if endB then { st with closed := st.closed.set i true }
             else { st with outputs := st.outputs.set i (st.outputs.getD i [] ++ [v]) }) := by
  obtain ⟨frame, hser, hfr, hhdr, hdata⟩ := serializeChunk_ok i endB v h250
  refine ⟨frame, hser, hfr, ?_⟩
  unfold processFrame
  rw [hhdr]
  show (if 0 ≤ ((i : Nat) : Int) ∧ ((i : Nat) : Int) < (count : Int) then _ else _) = _
  rw [if_pos (by constructor <;> omega)]
  have htn : ((i : Nat) : Int).toNat = i := by omega
  cases endB with
  | true =>
    show (if true = true then _ else _) = _
    rw [if_pos rfl]
    simp only [htn, hcl]
    rfl
  | false =>
    show (if false = true then _ else _) = _
    rw [if_neg (by simp)]
    simp only [htn, hdata]
    rw [show deserializeData (serializeData v).1 (serializeData v).2 = .ok v from
      deserializeData_serializeData v hwf]
    show (if st.closed.getD i false then _ else _) = _
    rw [hcl]
    rfl

theorem demuxWrite_single (count : Nat) (st : DemuxState) (frame : List Nat)
    (hwf : WellFormedFrame frame) :
    demuxWrite count st frame = processFrame count st frame := by
  unfold demuxWrite
  rw [getMuxedChunks_single frame hwf]
  show List.foldlM (processFrame count) st [frame] = _
  simp only [List.foldlM]
  cases h : processFrame count st frame <;> rfl

theorem mux_demux_go (streams : List (List SerializableData))
    (hle : streams.length ≤ 251)
    (hwf : ∀ s ∈ streams, ∀ v ∈ s, wfData v = true) :
    ∀ ops st,
    (∀ p ∈ ops, p.1 < streams.length) →
    st.outputs.length = streams.length →
    st.closed.length = streams.length →
    (∀ i, i < streams.length →
      ((ops.filter (fun p => p.1 == i)).map Prod.snd) =
        (if st.closed.getD i false then []
         else ((streams.getD i []).drop (st.outputs.getD i []).length).map some ++ [none])) →
    (∀ i, i < streams.length →
      st.outputs.getD i [] = (streams.getD i []).take (st.outputs.getD i []).length) →
    (∀ i, i < streams.length → st.closed.getD i false = true →
      st.outputs.getD i [] = streams.getD i []) →
    ∃ chunks, muxOutput ops = .ok chunks ∧
      chunks.foldlM (demuxWrite streams.length) st =
        .ok ⟨streams, List.replicate streams.length true⟩ := by
  intro ops
  induction ops with
  | nil =>
    intro st hops hlo hlc hfilter htake hclosed
    have hcl : ∀ i, i < streams.length → st.closed.getD i false = true := by
      intro i hi
      cases hcv : st.closed.getD i false with
      | true => rfl
      | false =>
        have hf := hfilter i hi
        rw [hcv] at hf
        simp at hf
    have hcls : st.closed = List.replicate streams.length true := by
      refine list_eq_of_getD false _ _ (by rw [hlc]; simp) ?_
      intro i hi
      rw [hlc] at hi
      rw [hcl i hi, getD_replicate _ _ _ _ hi]
    have houts : st.outputs = streams := by
      refine list_eq_of_getD [] _ _ (by rw [hlo]) ?_
      intro i hi
      rw [hlo] at hi
      exact hclosed i hi (hcl i hi)
    refine ⟨[], rfl, ?_⟩
    show pure st = _
    rw [show st = ⟨streams, List.replicate streams.length true⟩ from by
      cases st with
      | mk o c =>
        simp only at houts hcls
        rw [houts, hcls]]
    rfl
  | cons op rest ih =>
    obtain ⟨i, ov⟩ := op
    intro st hops hlo hlc hfilter htake hclosed
    have hi : i < streams.length := hops (i, ov) (List.mem_cons_self _ _)
    have h250 : i ≤ 250 := by omega
    have hfi := hfilter i hi
    rw [List.filter_cons, if_pos (by simp)] at hfi
    have hclF : st.closed.getD i false = false := by
      cases hcv : st.closed.getD i false with
      | false => rfl
      | true =>
        rw [hcv] at hfi
        simp at hfi
    rw [hclF] at hfi
    simp only [if_neg (by simp : ¬ (false = true)), List.map_cons] at hfi
    have hrestops : ∀ p ∈ rest, p.1 < streams.length :=
      fun p hp => hops p (List.mem_cons_of_mem _ hp)
    cases ov with
    | some v =>
      cases hd : (streams.getD i []).drop (st.outputs.getD i []).length with
      | nil =>
        rw [hd] at hfi
        simp at hfi
      | cons w pending =>
        rw [hd] at hfi
        simp only [List.map_cons, List.cons_append, List.cons.injEq,
          Option.some.injEq] at hfi
        obtain ⟨rfl, hfrest⟩ := hfi
        have hwv : wfData v = true := by
          have hmem : v ∈ streams.getD i [] :=
            List.mem_of_mem_drop (by rw [hd]; exact List.mem_cons_self v pending)
          exact hwf (streams.getD i []) (getD_mem streams i [] hi) v hmem
        obtain ⟨frame, hser, hfr, hproc⟩ :=
          processFrame_serialized streams.length st i false v hi h250 hwv hclF
        rw [if_neg (by simp : ¬ (false = true))] at hproc
        set st2 : DemuxState :=
          { st with outputs := st.outputs.set i (st.outputs.getD i [] ++ [v]) } with hst2
        have hk : (st.outputs.getD i []).length < (streams.getD i []).length := by
          by_contra hge
          have : (streams.getD i []).drop (st.outputs.getD i []).length = [] :=
            List.drop_eq_nil_of_le (by omega)
          rw [this] at hd
          exact List.noConfusion hd
        have hnewlen : (st2.outputs.getD i []).length =
            (st.outputs.getD i []).length + 1 := by
          rw [hst2]
          show ((st.outputs.set i (st.outputs.getD i [] ++ [v])).getD i []).length = _
          rw [getD_set_self _ _ _ _ (by rw [hlo]; exact hi)]
          simp
        obtain ⟨chunks2, hmo2, hfold2⟩ := ih st2 hrestops
          (by rw [hst2]; simp only [List.length_set]; exact hlo)
          (by rw [hst2]; exact hlc)
          (by
            intro j hj
            by_cases hij : i = j
            · subst hij
              have hgd : st2.outputs.getD i [] = st.outputs.getD i [] ++ [v] := by
                rw [hst2]
                exact getD_set_self _ _ _ _ (by rw [hlo]; exact hi)
              have hcl2 : st2.closed.getD i false = false := hclF
              rw [hcl2] at *
              rw [if_neg (by simp : ¬ (false = true))]
              rw [hgd]
              simp only [List.length_append, List.length_singleton]
              have hdrop1 : (streams.getD i []).drop ((st.outputs.getD i []).length + 1) =
                  pending := by
                rw [← List.drop_drop]
                rw [hd]
                rfl
              rw [hdrop1]
              exact hfrest
            · have : (rest.filter (fun p => p.1 == j)) =
                  (((i, some v) :: rest).filter (fun p => p.1 == j)) := by
                rw [List.filter_cons, if_neg (by simpa using hij)]
              rw [this]
              have hsame : st2.outputs.getD j [] = st.outputs.getD j [] := by
                rw [hst2]
                exact getD_set_ne _ _ _ _ _ hij
              have hsamec : st2.closed.getD j false = st.closed.getD j false := by
                rw [hst2]
              rw [hsame, hsamec]
              exact hfilter j hj)
          (by
            intro j hj
            by_cases hij : i = j
            · subst hij
              have hgd : st2.outputs.getD i [] = st.outputs.getD i [] ++ [v] := by
                rw [hst2]
                exact getD_set_self _ _ _ _ (by rw [hlo]; exact hi)
              rw [hgd]
              simp only [List.length_append, List.length_singleton]
              rw [List.take_succ]
              have hget : (streams.getD i [])[(st.outputs.getD i []).length]? = some v := by
                have h0 : ((streams.getD i []).drop
                    (st.outputs.getD i []).length)[0]? = some v := by
                  rw [hd]
                  simp
                rw [List.getElem?_drop] at h0
                simpa using h0
              rw [hget]
              show st.outputs.getD i [] ++ [v] = _ ++ [v]
              rw [← htake i hi]
            · have hsame : st2.outputs.getD j [] = st.outputs.getD j [] := by
                rw [hst2]
                exact getD_set_ne _ _ _ _ _ hij
              rw [hsame]
              exact htake j hj)
          (by
            intro j hj hcj
            by_cases hij : i = j
            · subst hij
              exact absurd hcj (by
                rw [show st2.closed = st.closed from rfl, hclF]
                simp)
            · have hsame : st2.outputs.getD j [] = st.outputs.getD j [] := by
                rw [hst2]
                exact getD_set_ne _ _ _ _ _ hij
              have hsamec : st2.closed.getD j false = st.closed.getD j false := by
                rw [hst2]
              rw [hsame]
              exact hclosed j hj (by rw [← hsamec]; exact hcj))
        refine ⟨frame :: chunks2, ?_, ?_⟩
        · show muxOutput ((i, some v) :: rest) = _
          unfold muxOutput
          rw [show muxChunkOfOp (i, some v) = serializeChunk (i : Int) false v from rfl,
            hser, hmo2]
          rfl
        · show List.foldlM _ st (frame :: chunks2) = _
          simp only [List.foldlM]
          rw [demuxWrite_single _ _ _ hfr, hproc]
          show List.foldlM _ st2 chunks2 = _
          exact hfold2
    | none =>
      have hpend : (streams.getD i []).drop (st.outputs.getD i []).length = [] := by
        cases hd : (streams.getD i []).drop (st.outputs.getD i []).length with
        | nil => rfl
        | cons w pending =>
          rw [hd] at hfi
          simp at hfi
      rw [hpend] at hfi
      simp only [List.map_nil, List.nil_append, List.cons.injEq] at hfi
      obtain ⟨_, hfrest⟩ := hfi
      have hdone : st.outputs.getD i [] = streams.getD i [] := by
        have hlen : (streams.getD i []).length ≤ (st.outputs.getD i []).length := by
          have := List.drop_eq_nil_iff_le.mp hpend
          omega
        have ht := htake i hi
        rw [List.take_of_length_le hlen] at ht
        exact ht
      have hwfe : wfData (.json (.str [4])) = true := by decide
      obtain ⟨frame, hser, hfr, hproc⟩ :=
        processFrame_serialized streams.length st i true (.json (.str [4])) hi h250 hwfe hclF
      rw [if_pos rfl] at hproc
      set st2 : DemuxState := { st with closed := st.closed.set i true } with hst2
      obtain ⟨chunks2, hmo2, hfold2⟩ := ih st2 hrestops
        (by rw [hst2]; exact hlo)
        (by rw [hst2]; simp only [List.length_set]; exact hlc)
        (by
          intro j hj
          by_cases hij : i = j
          · subst hij
            have hcl2 : st2.closed.getD i false = true := by
              rw [hst2]
              exact getD_set_self _ _ _ _ (by rw [hlc]; exact hi)
            rw [hcl2]
            simp only [if_pos rfl]
            exact hfrest
          · have : (rest.filter (fun p => p.1 == j)) =
                (((i, none) :: rest).filter (fun p => p.1 == j)) := by
              rw [List.filter_cons, if_neg (by simpa using hij)]
            rw [this]
            have hsamec : st2.closed.getD j false = st.closed.getD j false := by
              rw [hst2]
              exact getD_set_ne _ _ _ _ _ hij
            have hsame : st2.outputs.getD j [] = st.outputs.getD j [] := by
              rw [hst2]
            rw [hsame, hsamec]
            exact hfilter j hj)
        (by
          intro j hj
          have hsame : st2.outputs.getD j [] = st.outputs.getD j [] := by
            rw [hst2]
          rw [hsame]
          exact htake j hj)
        (by
          intro j hj hcj
          by_cases hij : i = j
          · subst hij
            have hsame : st2.outputs.getD i [] = st.outputs.getD i [] := by
              rw [hst2]
            rw [hsame]
            exact hdone
          · have hsamec : st2.closed.getD j false = st.closed.getD j false := by
              rw [hst2]
              exact getD_set_ne _ _ _ _ _ hij
            have hsame : st2.outputs.getD j [] = st.outputs.getD j [] := by
              rw [hst2]
            rw [hsame]
            exact hclosed j hj (by rw [← hsamec]; exact hcj))
      refine ⟨frame :: chunks2, ?_, ?_⟩
      · show muxOutput ((i, none) :: rest) = _
        unfold muxOutput
        rw [show muxChunkOfOp (i, none) =
          serializeChunk (i : Int) true (.json (.str [4])) from rfl, hser, hmo2]
        rfl
      · show List.foldlM _ st (frame :: chunks2) = _
        simp only [List.foldlM]
        rw [demuxWrite_single _ _ _ hfr, hproc]
        show List.foldlM _ st2 chunks2 = _
        exact hfold2

/-! ### Support lemmas for the remaining claims -/

theorem utf8EncodeChar_length_pos (c : Nat) : 1 ≤ (utf8EncodeChar c).length := by
  unfold utf8EncodeChar
  split_ifs <;> simp

theorem utf8Encode_length_ge (s : List Nat) : s.length ≤ (utf8Encode s).length := by
  induction s with
  | nil => simp [utf8Encode]
  | cons c t ih =>
    show (c :: t).length ≤ (utf8EncodeChar c ++ utf8Encode t).length
    have := utf8EncodeChar_length_pos c
    simp only [List.length_cons, List.length_append]
    omega

theorem stringifyElems_bytes_length (b : List Nat) :
    b.length + 1 ≤ (stringifyElems (bytesToJArray b)).length := by
  induction b with
  | nil => simp [bytesToJArray, stringifyElems]
  | cons x t ih =>
    cases t with
    | nil =>
      show 1 + 1 ≤ (stringifyV (.num (x : Int)) ++ [93]).length
      have h : (stringifyV (.num (x : Int))).length ≠ 0 := by
        simpa [List.length_eq_zero] using stringifyV_ne_nil (.num (x : Int))
      simp only [List.length_append, List.length_singleton]
      omega
    | cons y t2 =>
      show (x :: y :: t2).length + 1 ≤
        (stringifyV (.num (x : Int)) ++
          (44 :: stringifyElems (bytesToJArray (y :: t2)))).length
      have h : (stringifyV (.num (x : Int))).length ≠ 0 := by
        simpa [List.length_eq_zero] using stringifyV_ne_nil (.num (x : Int))
      have h2 : (y :: t2).length + 1 ≤ (stringifyElems (bytesToJArray (y :: t2))).length := ih
      simp only [List.length_append, List.length_cons] at h2 ⊢
      omega

/-- The serialized form of a raw byte sequence is strictly longer than
the bytes themselves, so it can never be the identity pass-through. -/
theorem serializeData_bytes_longer (b : List Nat) :
    b.length < (serializeData (.bytes b)).1.length := by
  rw [serializeData_data_eq]
  have h1 := utf8Encode_length_ge (stringifyV (dataJValue (.bytes b)))
  have h2 : (stringifyV (dataJValue (.bytes b))).length =
      (91 :: stringifyElems (bytesToJArray b)).length := rfl
  have h3 := stringifyElems_bytes_length b
  simp only [List.length_cons] at h2
  omega

/-- Processing any frame whose decoded header carries the end flag
never enqueues a value: the outputs are unchanged on success. -/
theorem except_bind_ok {α β ε : Type} (a : α) (g : α → Except ε β) :
    (Except.ok a >>= g) = g a := rfl

theorem processFrame_end_outputs (count : Nat) (st : DemuxState) (f : List Nat)
    (hh : Header) (harr : arrayToHeader f = .ok hh) (hend : hh.endFlag = true)
    (st3 : DemuxState) (hok : processFrame count st f = .ok st3) :
    st3.outputs = st.outputs ∧ st3.closed = st.closed.set hh.id.toNat true := by
  unfold processFrame at hok
  rw [harr, except_bind_ok] at hok
  by_cases hrange : 0 ≤ hh.id ∧ hh.id < (count : Int)
  · rw [if_pos hrange, hend, if_pos rfl] at hok
    by_cases hcl : st.closed.getD hh.id.toNat false
    · rw [if_pos hcl] at hok
      exact absurd hok (by simp)
    · rw [if_neg hcl] at hok
      have := Except.ok.inj hok
      rw [← this]
      exact ⟨rfl, rfl⟩
  · rw [if_neg hrange] at hok
    exact absurd hok (by simp)

/-- The per-chunk scan over a frame-boundary-aligned chunking
reconstructs all frames. -/
theorem scanChunks_groups (groups : List (List (List Nat)))
    (hwf : ∀ f ∈ groups.flatten, WellFormedFrame f) :
    scanChunks (groups.map List.flatten) = some groups.flatten := by
  unfold scanChunks
  suffices h : (groups.map List.flatten).mapM getMuxedChunks = some groups by
    rw [h]
    rfl
  induction groups with
  | nil => rfl
  | cons g gs ih =>
    have hg : getMuxedChunks g.flatten = some g :=
      getMuxedChunks_flatten g (fun f hf => hwf f (by
        simp only [List.flatten_cons, List.mem_append]
        exact Or.inl hf))
    have hgs : (gs.map List.flatten).mapM getMuxedChunks = some gs :=
      ih (fun f hf => hwf f (by
        simp only [List.flatten_cons, List.mem_append]
        exact Or.inr hf))
    simp only [List.map_cons, List.mapM_cons, hg, hgs, Option.bind_eq_bind]
    rfl

/-! ### The claims -/

/-- C1: for every non-empty sequence of at most 251 source streams of
well-formed serializable values and every interleaving of
read-completions the muxer scheduler can observe, the chunks the muxer
enqueues, fed to the demuxer with the stream count, close every output
stream after delivering exactly the original per-stream value
sequences in order. -/
theorem c1_mux_demux_roundtrip (streams : List (List SerializableData)) (ops : List MuxOp)
    (hne : streams ≠ []) (hle : streams.length ≤ 251)
    (hwf : ∀ s ∈ streams, ∀ v ∈ s, wfData v = true)
    (hvalid : ValidInterleaving streams ops) :
    ∃ chunks, muxOutput ops = .ok chunks ∧
      demuxRun streams.length chunks =
        .ok { outputs := streams, closed := List.replicate streams.length true } := by
  obtain ⟨hops, hfil⟩ := hvalid
  have ho : ∀ i, i < streams.length →
      (initDemuxState streams.length).outputs.getD i [] = [] := by
    intro i hi
    exact getD_replicate _ _ _ _ hi
  have hc : ∀ i, i < streams.length →
      (initDemuxState streams.length).closed.getD i false = false := by
    intro i hi
    exact getD_replicate _ _ _ _ hi
  have h := mux_demux_go streams hle hwf ops (initDemuxState streams.length) hops
    (by simp [initDemuxState])
    (by simp [initDemuxState])
    (by
      intro i hi
      rw [hc i hi, ho i hi]
      simp only [if_neg (by simp : ¬ (false = true)), List.length_nil, List.drop_zero]
      exact hfil i hi)
    (by
      intro i hi
      rw [ho i hi]
      simp)
    (by
      intro i hi hcl
      rw [hc i hi] at hcl
      exact absurd hcl (by simp))
  exact h

/-- C1 witness at a concrete session: two streams, one JSON value and
one raw byte value, with an interleaved completion order. -/
theorem c1_witness :
    ∃ chunks,
      muxOutput [(0, some (.json (.num 1))), (1, some (.bytes [7])), (1, none), (0, none)] =
        .ok chunks ∧
      demuxRun 2 chunks =
        .ok ⟨[[.json (.num 1)], [.bytes [7]]], List.replicate 2 true⟩ :=
  c1_mux_demux_roundtrip [[.json (.num 1)], [.bytes [7]]]
    [(0, some (.json (.num 1))), (1, some (.bytes [7])), (1, none), (0, none)]
    (by decide) (by decide) (by decide) ⟨by decide, by decide⟩

/-- C2 counterexample: a single well-formed frame split mid-frame into
two chunks; the per-chunk demux scan fails (in JS it throws a
TypeError on `muxedChunks[-1]`) instead of reconstructing the frame,
although the two chunks are a splitting of that frame's bytes. -/
theorem c2_counterexample :
    WellFormedFrame [1, 5, 5, 5, 65] ∧
    [1, 5] ++ [5, 5, 65] = [1, 5, 5, 5, 65] ∧
    scanChunks [[1, 5], [5, 5, 65]] = none ∧
    getMuxedChunks [1, 5, 5, 5, 65] = some [[1, 5, 5, 5, 65]] :=
  ⟨⟨[5, 5, 5, 65], rfl, by decide⟩, rfl, rfl, rfl⟩

/-- C2 amended: for chunkings that split the concatenated frames only
at frame boundaries, the per-chunk reassembly scan reconstructs
exactly the original frame sequence; in particular getMuxedChunks on
the whole concatenation returns exactly those frames. Splits that fall
inside a frame are not reconstructed (the scan crashes, see the
counterexample). -/
theorem c2_amended (frames : List (List Nat)) (groups : List (List (List Nat)))
    (hwf : ∀ f ∈ frames, WellFormedFrame f) (hg : groups.flatten = frames) :
    scanChunks (groups.map List.flatten) = some frames ∧
    getMuxedChunks frames.flatten = some frames := by
  constructor
  · rw [← hg]
    exact scanChunks_groups groups (by rw [hg]; exact hwf)
  · exact getMuxedChunks_flatten frames hwf

/-- C2 witness: two well-formed frames, transported as two
boundary-aligned chunks. -/
theorem c2_witness :
    scanChunks [[1, 5, 5, 5, 65], [1, 6, 6, 5, 66]] =
      some [[1, 5, 5, 5, 65], [1, 6, 6, 5, 66]] ∧
    getMuxedChunks ([[1, 5, 5, 5, 65], [1, 6, 6, 5, 66]] : List (List Nat)).flatten =
      some [[1, 5, 5, 5, 65], [1, 6, 6, 5, 66]] := by
  have h := c2_amended [[1, 5, 5, 5, 65], [1, 6, 6, 5, 66]]
    [[[1, 5, 5, 5, 65]], [[1, 6, 6, 5, 66]]]
    (by
      intro f hf
      simp only [List.mem_cons, List.not_mem_nil, or_false] at hf
      rcases hf with rfl | rfl
      · exact ⟨[5, 5, 5, 65], rfl, by decide⟩
      · exact ⟨[6, 6, 5, 66], rfl, by decide⟩)
    (by decide)
  simpa using h

/-- C3: evaluation of getNextReader at the registry
`[{id 0, idle}, {id 1, busy}, {id 2, ended}]` with last-serviced id 1.
Reader 0 is neither ended nor busy, so round-robin with wraparound
must select it; the code returns all-busy instead (its own comment
claims every stream is busy there), because the wraparound search only
reconsiders the last-serviced id, never ids below it. -/
theorem c3_code_behavior :
    getNextReader [{ id := 0, busy := false, endFlag := false },
      { id := 1, busy := true, endFlag := false },
      { id := 2, busy := false, endFlag := true }] 1 = .allBusy ∧
    ({ id := 0, busy := false, endFlag := false } : Reader).busy = false ∧
    ({ id := 0, busy := false, endFlag := false } : Reader).endFlag = false ∧
    getNextReader [{ id := 0, busy := false, endFlag := false },
      { id := 1, busy := true, endFlag := false },
      { id := 2, busy := false, endFlag := true }] 1 ≠
      .reader { id := 0, busy := false, endFlag := false } := by
  refine ⟨by decide, rfl, rfl, by decide⟩

/-- C4 counterexample: an ended reader still receives the forwarded
cancel call, refuting the claim that cancellation reaches exactly the
not-yet-ended readers. -/
theorem c4_counterexample :
    muxerCancel [{ id := 0, endFlag := true, canceledWith := none }] "stop" =
      [{ id := 0, endFlag := true,
         canceledWith := some "The muxer stream was canceled: stop" }] ∧
    ({ id := 0, endFlag := true, canceledWith := none } : CancelableReader).endFlag = true :=
  ⟨rfl, rfl⟩

/-- C4 amended: canceling the muxer output forwards the formatted
reason to every reader in the registry, whether or not it has ended;
ids and end flags are untouched. -/
theorem c4_amended (readers : List CancelableReader) (reason : String) :
    (∀ r ∈ muxerCancel readers reason,
      r.canceledWith = some ("The muxer stream was canceled: " ++ reason)) ∧
    (muxerCancel readers reason).map (fun r => (r.id, r.endFlag)) =
      readers.map (fun r => (r.id, r.endFlag)) := by
  constructor
  · intro r hr
    simp only [muxerCancel, List.mem_map] at hr
    obtain ⟨r0, _, rfl⟩ := hr
    rfl
  · simp [muxerCancel]

/-- C4 witness: the amended statement evaluated at a registry with one
ended and one live reader. -/
theorem c4_witness :
    (∀ r ∈ muxerCancel [{ id := 0, endFlag := true, canceledWith := none },
        { id := 1, endFlag := false, canceledWith := none }] "halt",
      r.canceledWith = some ("The muxer stream was canceled: " ++ "halt")) ∧
    (muxerCancel [{ id := 0, endFlag := true, canceledWith := none },
        { id := 1, endFlag := false, canceledWith := none }] "halt").map
      (fun r => (r.id, r.endFlag)) =
      [({ id := 0, endFlag := true, canceledWith := none } : CancelableReader),
        { id := 1, endFlag := false, canceledWith := none }].map
        (fun r => (r.id, r.endFlag)) :=
  c4_amended [{ id := 0, endFlag := true, canceledWith := none },
    { id := 1, endFlag := false, canceledWith := none }] "halt"

/-- C5 counterexample: serializing the raw byte sequence `[0]` marks
it raw but produces the UTF-8 JSON text `[0]` (bytes 91, 48, 93), not
the original payload byte. -/
theorem c5_counterexample :
    (serializeData (.bytes [0])).2 = true ∧
    (serializeData (.bytes [0])).1 = [91, 48, 93] ∧
    (serializeData (.bytes [0])).1 ≠ [0] :=
  ⟨rfl, rfl, by decide⟩

/-- C5 amended: serializeData flags raw byte sequences with
isRaw = true but JSON-encodes the number array of the bytes to UTF-8
text; the produced payload is never the original bytes unchanged (it
is strictly longer). -/
theorem c5_amended (b : List Nat) :
    (serializeData (.bytes b)).2 = true ∧
    (serializeData (.bytes b)).1 =
      utf8Encode (stringifyV (.arr (bytesToJArray b))) ∧
    (serializeData (.bytes b)).1 ≠ b := by
  refine ⟨rfl, rfl, ?_⟩
  intro heq
  have := serializeData_bytes_longer b
  rw [heq] at this
  omega

/-- C6 counterexample: deserializeData throws on a payload whose UTF-8
decoding is not JSON, in both raw modes; with isRaw = true it does not
return the input bytes either. -/
theorem c6_counterexample :
    deserializeData [120] false = .error "Unexpected token in JSON" ∧
    deserializeData [120] true = .error "Unexpected token in JSON" :=
  ⟨rfl, rfl⟩

/-- C6 amended: deserializeData JSON-parses the UTF-8 decoding of the
payload regardless of the raw flag and throws when the parse fails; on
every payload produced by serializeData it succeeds and returns the
original value (raw bytes are revived from the parsed number array,
not passed through). -/
theorem c6_amended :
    (∀ d : SerializableData, wfData d = true →
      deserializeData (serializeData d).1 (serializeData d).2 = .ok d) ∧
    (∀ data isRaw, jsonParse (utf8Decode data) = none →
      deserializeData data isRaw = .error "Unexpected token in JSON") := by
  constructor
  · exact deserializeData_serializeData
  · intro data isRaw h
    unfold deserializeData
    rw [h]

/-- C6 witness: the amended statement at a raw payload and at a
non-JSON payload. -/
theorem c6_witness :
    deserializeData (serializeData (.bytes [5, 255])).1
      (serializeData (.bytes [5, 255])).2 = .ok (.bytes [5, 255]) ∧
    deserializeData [120] true = .error "Unexpected token in JSON" :=
  ⟨c6_amended.1 (.bytes [5, 255]) (by decide), c6_amended.2 [120] true rfl⟩

/-- C7 counterexample: the muxer constructor accepts 251 streams (its
only synchronous validation is non-emptiness), and even the largest
id, 250, encodes without error — the claimed construction-time failure
for 251 streams does not exist. -/
theorem c7_counterexample :
    muxerInit 251 =
      .ok ((List.range 251).map (fun i => { id := i, busy := false, endFlag := false })) ∧
    headerToArray { id := 250, endFlag := false, dataIsRaw := false } = .ok [1, 255, 5, 5] := by
  constructor
  · unfold muxerInit
    rw [if_neg (by omega)]
  · rfl

/-- C7 amended: construction never validates the stream count beyond
non-emptiness; sessions of up to 251 streams (ids 0..250) serialize
headers fine, and with 252 or more streams the error referencing the
id bound 0..250 is raised by headerToArray only when a frame for a
stream with id above 250 is serialized. -/
theorem c7_amended (n : Nat) (h : 252 ≤ n) :
    (∃ readers, muxerInit n = .ok readers ∧ readers.length = n) ∧
    headerToArray { id := (n : Int) - 1, endFlag := false, dataIsRaw := false } =
      .error "stream id must be a number between 0 and 250" ∧
    (headerToArray { id := 250, endFlag := false, dataIsRaw := false }).isOk = true := by
  refine ⟨⟨(List.range n).map (fun i => { id := i, busy := false, endFlag := false }),
    ?_, ?_⟩, ?_, ?_⟩
  · unfold muxerInit
    rw [if_neg (by omega)]
  · simp
  · exact headerToArray_err _ (by left; show (n : Int) - 1 > 250; omega)
  · rfl

/-- C7 witness: the amended statement at 252 streams. -/
theorem c7_witness :
    (∃ readers, muxerInit 252 = .ok readers ∧ readers.length = 252) ∧
    headerToArray { id := (252 : Int) - 1, endFlag := false, dataIsRaw := false } =
      .error "stream id must be a number between 0 and 250" ∧
    (headerToArray { id := 250, endFlag := false, dataIsRaw := false }).isOk = true :=
  c7_amended 252 (by decide)

/-- C8: the 4-byte header encoding decodes back to the header exactly
when the id is in 0..250, and headerToArray throws exactly when the id
is outside that range. -/
theorem c8_header_roundtrip (h : Header) :
    ((0 ≤ h.id ∧ h.id ≤ 250) →
      ∃ bs, headerToArray h = .ok bs ∧ bs.length = 4 ∧ arrayToHeader bs = .ok h) ∧
    (¬ (0 ≤ h.id ∧ h.id ≤ 250) →
      headerToArray h = .error "stream id must be a number between 0 and 250") := by
  constructor
  · rintro ⟨h0, h250⟩
    refine ⟨_, headerToArray_ok h h0 h250, rfl, ?_⟩
    have := arrayToHeader_encode h h0 h250 []
    rw [List.append_nil] at this
    exact this
  · intro hout
    exact headerToArray_err h (by omega)

/-- C8 witness: the round-trip at a concrete header and the error at
an out-of-range id. -/
theorem c8_witness :
    (∃ bs, headerToArray { id := 7, endFlag := true, dataIsRaw := false } = .ok bs ∧
      bs.length = 4 ∧
      arrayToHeader bs = .ok { id := 7, endFlag := true, dataIsRaw := false }) ∧
    headerToArray { id := 251, endFlag := false, dataIsRaw := true } =
      .error "stream id must be a number between 0 and 250" :=
  ⟨(c8_header_roundtrip { id := 7, endFlag := true, dataIsRaw := false }).1 (by decide),
    (c8_header_roundtrip { id := 251, endFlag := false, dataIsRaw := true }).2 (by decide)⟩

/-- C9: no payload byte produced by serializeData equals the frame
marker 0x01 — every payload, raw byte sequences included, is UTF-8
JSON text whose characters are printable and whose multi-byte
sequences use bytes of 0x80 and above, so marker-scan boundaries never
fall inside a payload. -/
theorem c9_payload_marker_free (d : SerializableData) :
    (1 : Nat) ∉ (serializeData d).1 := by
  intro hmem
  have := serializeData_ge32 d 1 hmem
  omega

/-- C10: the terminal frame the muxer emits for stream `i` decodes to
a header with the end flag set; the demuxer closes output `i` on it
without enqueuing its sentinel payload, and more generally processing
any frame whose header carries the end flag never changes the
outputs. -/
theorem c10_end_frame_closes (count : Nat) (st : DemuxState) (i : Nat)
    (hi : i < count) (h250 : i ≤ 250) (hcl : st.closed.getD i false = false) :
    (∃ frame, muxChunkOfOp (i, none) = .ok (some frame) ∧
      (∃ hh, arrayToHeader frame = .ok hh ∧ hh.endFlag = true ∧ hh.id = (i : Int)) ∧
      processFrame count st frame = .ok { st with closed := st.closed.set i true }) ∧
    (∀ f hh st3, arrayToHeader f = .ok hh → hh.endFlag = true →
      processFrame count st f = .ok st3 → st3.outputs = st.outputs) := by
  constructor
  · obtain ⟨frame, hser, hfr, hproc⟩ :=
      processFrame_serialized count st i true (.json (.str [4])) hi h250 (by decide) hcl
    rw [if_pos rfl] at hproc
    obtain ⟨frame2, hser2, hfr2, hhdr2, _⟩ := serializeChunk_ok i true (.json (.str [4])) h250
    have hfe : frame = frame2 := by
      rw [hser] at hser2
      simpa using hser2
    refine ⟨frame, hser,
      ⟨Header.mk (i : Int) true (serializeData (SerializableData.json (JValue.str [4]))).2,
        ?_, rfl, rfl⟩, hproc⟩
    rw [hfe]
    exact hhdr2
  · intro f hh st3 harr hend hok
    exact (processFrame_end_outputs count st f hh harr hend st3 hok).1

/-- C10 witness: the end frame for stream 0 of a 1-stream session
closes the open output without delivering anything. -/
theorem c10_witness :
    (∃ frame, muxChunkOfOp (0, none) = .ok (some frame) ∧
      (∃ hh, arrayToHeader frame = .ok hh ∧ hh.endFlag = true ∧ hh.id = (0 : Int)) ∧
      processFrame 1 (initDemuxState 1) frame =
        .ok { initDemuxState 1 with closed := (initDemuxState 1).closed.set 0 true }) ∧
    (∀ f hh st3, arrayToHeader f = .ok hh → hh.endFlag = true →
      processFrame 1 (initDemuxState 1) f = .ok st3 →
      st3.outputs = (initDemuxState 1).outputs) :=
  c10_end_frame_closes 1 (initDemuxState 1) 0 (by decide) (by decide) (by decide)

end MuxWebStreams
